import Mathlib

/-!
Shallow embedding of the Sudoku solver in `src/solution.py` and proofs about it.

The Python candidate map (`values`, a `dict` from box names like `"A1"` to
candidate strings like `"123456789"`) is modelled as an association list
`List (String × String)` in insertion order.  `getv` models `values[box]`
(reading the first matching entry; a missing key yields `""`), and `setv`
models `values[box] = v` (overwriting the first matching entry in place and
leaving the map unchanged when the key is absent, which never happens on the
maps the solver builds).  Python iterates a `dict` in insertion order and the
solver never adds or removes keys, so iteration over the key list is faithful.
Python `set` iteration order (used for `box_peers`) is arbitrary; the model
fixes the first-occurrence order, which does not affect any solver result.
-/

/-- The candidate map: box name ↦ string of candidate digits. -/
abbrev CMap := List (String × String)

/-- `values[box]` — value of the first entry with the given key, `""` if absent. -/
def getv : CMap → String → String
  | [], _ => ""
  | (k, v) :: rest, b => if k = b then v else getv rest b

/-- `values[box] = w` — overwrite the first entry with the given key. -/
def setv : CMap → String → String → CMap
  | [], _, _ => []
  | (k, v) :: rest, b, w => if k = b then (k, w) :: rest else (k, v) :: setv rest b w

/-- `s.replace(c, '')` for a single character `c`: drop every occurrence of `c`. -/
def removeChar (s : String) (c : Char) : String :=
  ⟨s.data.filter (fun x => x != c)⟩

/-- `cross(A, B)` of `solution.py`: all two-character strings `a + b`. -/
def cross (a b : String) : List String :=
  a.data.flatMap (fun x => b.data.map (fun y => String.mk [x, y]))

def rows : String := "ABCDEFGHI"

def cols : String := "123456789"

def boxes : List String := cross rows cols

def row_units : List (List String) := rows.data.map (fun r => cross (String.mk [r]) cols)

def column_units : List (List String) := cols.data.map (fun c => cross rows (String.mk [c]))

def square_units : List (List String) :=
  (["ABC", "DEF", "GHI"] : List String).flatMap
    (fun rs => (["123", "456", "789"] : List String).map (fun cs => cross rs cs))

def diagonal_units : List (List String) :=
  [List.zipWith (fun r c => String.mk [r, c]) rows.data cols.data,
   List.zipWith (fun r c => String.mk [r, c]) rows.data cols.data.reverse]

def units : List (List String) := row_units ++ column_units ++ square_units ++ diagonal_units

/-- `box_units[s]`: the units containing box `s`. -/
def box_units (s : String) : List (List String) :=
  units.filter (fun u => decide (s ∈ u))

/-- `box_peers[s]`: every box sharing a unit with `s`, except `s` itself (a set). -/
def box_peers (s : String) : List String :=
  ((box_units s).flatten.filter (fun b => b != s)).dedup

/-- `grid_values(grid)`: known cells map to their digit, unknown cells to `"123456789"`. -/
def grid_values (g : String) : CMap :=
  (boxes.zip g.data).map
    (fun p => (p.1, if p.2 ∈ ("123456789" : String).data then String.mk [p.2] else "123456789"))

/-- The body of `eliminate`'s inner loop: remove digit `c` from peer `p`,
failing (`return False`) when `p` would be left with no candidates. -/
def elimPeer (c : Char) (m' : CMap) (p : String) : Option CMap :=
  let nv := removeChar (getv m' p) c
  if nv = "" then none else some (setv m' p nv)

/-- One step of `eliminate`'s outer loop: if `values[b]` is a single digit,
remove that digit from every peer, failing when a peer would become empty. -/
def elimBox (m : CMap) (b : String) : Option CMap :=
  match (getv m b).data with
  | [c] => (box_peers b).foldlM (elimPeer c) m
  | _ => some m

/-- `eliminate(values)`: loop over the boxes of the map (in insertion order,
values re-read lazily as in Python's `values.items()`), removing each solved
box's digit from its peers; `none` models the `return False` on contradiction. -/
def eliminate (m : CMap) : Option CMap :=
  (m.map Prod.fst).foldlM elimBox m

/-- One step of `only_choice`: if exactly one box of unit `u` lists digit `d`,
that box is assigned `d`. -/
def ocStep (u : List String) (m : CMap) (d : Char) : CMap :=
  match u.filter (fun b => decide (d ∈ (getv m b).data)) with
  | [b] => setv m b (String.mk [d])
  | _ => m

/-- `only_choice(values)`: for every unit and digit, force the digit wherever it
has a unique possible box. -/
def only_choice (m : CMap) : CMap :=
  units.foldl (fun m' u => ("123456789" : String).data.foldl (ocStep u) m') m

/-- Python `<` on lists of code points (lexicographic). -/
def charListLt : List Char → List Char → Bool
  | [], [] => false
  | [], _ :: _ => true
  | _ :: _, [] => false
  | a :: as, b :: bs => if a < b then true else if b < a then false else charListLt as bs

/-- Python `s < t` on strings: lexicographic comparison of code points. -/
def strLt (s t : String) : Bool := charListLt s.data t.data

/-- Python `set(s) == set(t)` on candidate strings. -/
def setEq (s t : String) : Bool :=
  s.data.all (fun c => decide (c ∈ t.data)) && t.data.all (fun c => decide (c ∈ s.data))

/-- The naked-twins removal body: both digits of the twin pair `b1, b2` are
removed from every other box of unit `u`. -/
def ntRemove (m : CMap) (u : List String) (b1 b2 : String) : CMap :=
  match (getv m b1).data with
  | [c0, c1] =>
    (u.filter (fun b => !(b == b1 || b == b2))).foldl
      (fun m' b => setv m' b (removeChar (removeChar (getv m' b) c0) c1)) m
  | _ => m

/-- One candidate pair of the lazy `pairs` generator: the conditions are
evaluated against the current map, exactly as the Python generator does. -/
def ntPair (u : List String) (m : CMap) (p : String × String) : CMap :=
  if strLt p.1 p.2 = true ∧ (getv m p.1).length = 2 ∧ setEq (getv m p.1) (getv m p.2) = true then
    ntRemove m u p.1 p.2
  else m

/-- The pair stream of the `pairs` generator for one unit, in generator order
(`box1` outer, `box2` inner). -/
def ntPairs (u : List String) : List (String × String) :=
  u.flatMap (fun b1 => u.map (fun b2 => (b1, b2)))

/-- `naked_twins` restricted to one unit: scan the ordered pairs `(box1, box2)`
of the unit in generator order, mutating the map as pairs fire. -/
def ntUnit (m : CMap) (u : List String) : CMap :=
  (ntPairs u).foldl (ntPair u) m

/-- `naked_twins(values)`. -/
def naked_twins (m : CMap) : CMap := units.foldl ntUnit m

/-- `sum(1 for box, digits in values.items() if len(digits) == 1)`. -/
def solvedCount (m : CMap) : Nat :=
  m.countP (fun p => p.2.length == 1)

/-- Total number of candidate characters in the map (the termination measure of
the reduction loop and the search; not part of the source). -/
def sumLen (m : CMap) : Nat :=
  (m.map (fun p => p.2.length)).sum

theorem getv_cons (k v : String) (rest : CMap) (b : String) :
    getv ((k, v) :: rest) b = if k = b then v else getv rest b := rfl

theorem setv_cons (k v : String) (rest : CMap) (b w : String) :
    setv ((k, v) :: rest) b w = if k = b then (k, w) :: rest else (k, v) :: setv rest b w := rfl

theorem setv_map_fst (m : CMap) (k w : String) :
    (setv m k w).map Prod.fst = m.map Prod.fst := by
  induction m with
  | nil => rfl
  | cons p rest ih =>
    obtain ⟨k1, v1⟩ := p
    rw [setv_cons]
    by_cases h : k1 = k
    · rw [if_pos h]; rfl
    · rw [if_neg h, List.map_cons, List.map_cons, ih]

theorem setv_length (m : CMap) (k w : String) : (setv m k w).length = m.length := by
  have h := congrArg List.length (setv_map_fst m k w)
  rwa [List.length_map, List.length_map] at h

theorem getv_setv_ne (m : CMap) (k w x : String) (h : x ≠ k) :
    getv (setv m k w) x = getv m x := by
  induction m with
  | nil => rfl
  | cons p rest ih =>
    obtain ⟨k1, v1⟩ := p
    rw [setv_cons]
    by_cases hk : k1 = k
    · rw [if_pos hk, getv_cons, getv_cons, if_neg (fun hh : k1 = x => h (hh ▸ hk.symm ▸ rfl)),
        if_neg (fun hh : k1 = x => h (hh ▸ hk.symm ▸ rfl))]
    · rw [if_neg hk, getv_cons, getv_cons]
      by_cases hx : k1 = x
      · rw [if_pos hx, if_pos hx]
      · rw [if_neg hx, if_neg hx, ih]

theorem getv_setv_or (m : CMap) (k w x : String) :
    getv (setv m k w) x = w ∨ getv (setv m k w) x = getv m x := by
  by_cases h : x = k
  · subst h
    induction m with
    | nil => right; rfl
    | cons p rest ih =>
      obtain ⟨k1, v1⟩ := p
      rw [setv_cons]
      by_cases hk : k1 = x
      · left; rw [if_pos hk, getv_cons, if_pos hk]
      · rw [if_neg hk, getv_cons, getv_cons, if_neg hk, if_neg hk]
        exact ih
  · right; exact getv_setv_ne m k w x h

theorem setv_getv_self (m : CMap) (b : String) : setv m b (getv m b) = m := by
  induction m with
  | nil => rfl
  | cons p rest ih =>
    obtain ⟨k1, v1⟩ := p
    rw [getv_cons, setv_cons]
    by_cases hk : k1 = b
    · rw [if_pos hk, if_pos hk]
    · rw [if_neg hk, if_neg hk, ih]

theorem getv_not_mem (m : CMap) (b : String) (h : b ∉ m.map Prod.fst) : getv m b = "" := by
  induction m with
  | nil => rfl
  | cons p rest ih =>
    rw [List.map_cons, List.mem_cons, not_or] at h
    obtain ⟨k1, v1⟩ := p
    rw [getv_cons, if_neg (fun hh : k1 = b => h.1 hh.symm)]
    exact ih h.2

theorem mem_of_getv_ne (m : CMap) (b : String) (h : getv m b ≠ "") : b ∈ m.map Prod.fst := by
  by_contra hc
  exact h (getv_not_mem m b hc)

theorem getv_setv_mem (m : CMap) (k w : String) (h : k ∈ m.map Prod.fst) :
    getv (setv m k w) k = w := by
  induction m with
  | nil => simp at h
  | cons p rest ih =>
    obtain ⟨k1, v1⟩ := p
    rw [setv_cons]
    by_cases hk : k1 = k
    · rw [if_pos hk, getv_cons, if_pos hk]
    · rw [List.map_cons, List.mem_cons] at h
      rcases h with h | h
      · exact absurd h.symm hk
      · rw [if_neg hk, getv_cons, if_neg hk]
        exact ih h

theorem setv_not_mem (m : CMap) (k w : String) (h : k ∉ m.map Prod.fst) : setv m k w = m := by
  induction m with
  | nil => rfl
  | cons p rest ih =>
    rw [List.map_cons, List.mem_cons, not_or] at h
    obtain ⟨k1, v1⟩ := p
    rw [setv_cons, if_neg (fun hh : k1 = k => h.1 hh.symm)]
    rw [ih h.2]

/-- Pointwise shrinking: same keys in the same order, and each entry's candidate
string is a sublist (subsequence of characters) of what it was.  Every mutation
the solver performs only shrinks candidate strings, so this relation connects
any solver output to its input. -/
def Pws (m' m : CMap) : Prop :=
  List.Forall₂ (fun p q : String × String => p.1 = q.1 ∧ p.2.data.Sublist q.2.data) m' m

theorem Pws_refl (m : CMap) : Pws m m := by
  induction m with
  | nil => exact List.Forall₂.nil
  | cons p rest ih => exact List.Forall₂.cons ⟨rfl, List.Sublist.refl _⟩ ih

theorem Pws_trans {m2 m1 m0 : CMap} (h2 : Pws m2 m1) (h1 : Pws m1 m0) : Pws m2 m0 := by
  induction h2 generalizing m0 with
  | nil => cases h1; exact List.Forall₂.nil
  | cons hpq hrest ih =>
    cases h1 with
    | cons hqr hrest1 =>
      exact List.Forall₂.cons ⟨hpq.1.trans hqr.1, hpq.2.trans hqr.2⟩ (ih hrest1)

theorem Pws_keys {m' m : CMap} (h : Pws m' m) : m'.map Prod.fst = m.map Prod.fst := by
  induction h with
  | nil => rfl
  | cons hpq _ ih => rw [List.map_cons, List.map_cons, hpq.1, ih]

theorem Pws_getv {m' m : CMap} (h : Pws m' m) (b : String) :
    (getv m' b).data.Sublist (getv m b).data := by
  induction m' generalizing m with
  | nil => cases h; exact List.Sublist.refl _
  | cons p rest ih =>
    cases h with
    | cons hpq hrest =>
      rename_i q l2
      obtain ⟨k1, v1⟩ := p
      obtain ⟨k2, v2⟩ := q
      obtain ⟨hk, hv⟩ := hpq
      dsimp at hk hv
      subst hk
      rw [getv_cons, getv_cons]
      by_cases hb : k1 = b
      · rw [if_pos hb, if_pos hb]; exact hv
      · rw [if_neg hb, if_neg hb]; exact ih hrest

theorem Pws_setv {m : CMap} {k v : String} (h : v.data.Sublist (getv m k).data) :
    Pws (setv m k v) m := by
  induction m with
  | nil => exact List.Forall₂.nil
  | cons p rest ih =>
    obtain ⟨k1, v1⟩ := p
    rw [getv_cons] at h
    rw [setv_cons]
    by_cases hk : k1 = k
    · rw [if_pos hk]
      rw [if_pos hk] at h
      exact List.Forall₂.cons ⟨rfl, h⟩ (Pws_refl rest)
    · rw [if_neg hk]
      rw [if_neg hk] at h
      exact List.Forall₂.cons ⟨rfl, List.Sublist.refl _⟩ (ih h)

theorem Pws_sumLen_le {m' m : CMap} (h : Pws m' m) : sumLen m' ≤ sumLen m := by
  induction h with
  | nil => exact Nat.le.refl
  | cons hpq _ ih =>
    simp only [sumLen, List.map_cons, List.sum_cons]
    exact Nat.add_le_add hpq.2.length_le ih

theorem Pws_sumLen_lt {m' m : CMap} (h : Pws m' m) (hne : m' ≠ m) : sumLen m' < sumLen m := by
  induction h with
  | nil => exact absurd rfl hne
  | cons hpq hrest ih =>
    rename_i p q l' l
    simp only [sumLen, List.map_cons, List.sum_cons]
    by_cases hv : p.2.data = q.2.data
    · have hp : p = q := by
        obtain ⟨k1, v1⟩ := p
        obtain ⟨k2, v2⟩ := q
        obtain ⟨hk, _⟩ := hpq
        dsimp at hk hv
        rw [Prod.mk.injEq]
        exact ⟨hk, String.ext hv⟩
      have hl : l' ≠ l := fun hh => hne (by rw [hp, hh])
      have hlen : p.2.length = q.2.length := by
        simp only [String.length]
        rw [hv]
      rw [hlen]
      exact Nat.add_lt_add_left (ih hl) _
    · have hlt : p.2.length < q.2.length :=
        Nat.lt_of_le_of_ne hpq.2.length_le (fun hh => hv (hpq.2.eq_of_length hh))
      have hle : sumLen l' ≤ sumLen l := Pws_sumLen_le hrest
      simp only [sumLen] at hle
      exact Nat.add_lt_add_of_lt_of_le hlt hle

theorem sumLen_setv_lt (m : CMap) (k v : String) (hk : k ∈ m.map Prod.fst)
    (hv : v.length < (getv m k).length) : sumLen (setv m k v) < sumLen m := by
  induction m with
  | nil => simp at hk
  | cons p rest ih =>
    obtain ⟨k1, v1⟩ := p
    rw [getv_cons] at hv
    rw [setv_cons]
    by_cases h : k1 = k
    · rw [if_pos h]
      rw [if_pos h] at hv
      simp only [sumLen, List.map_cons, List.sum_cons]
      exact Nat.add_lt_add_right hv _
    · rw [if_neg h]
      rw [if_neg h] at hv
      rw [List.map_cons, List.mem_cons] at hk
      rcases hk with hk | hk
      · exact absurd hk.symm h
      · simp only [sumLen, List.map_cons, List.sum_cons]
        exact Nat.add_lt_add_left (ih hk hv) _

theorem solvedCount_le_length (m : CMap) : solvedCount m ≤ m.length :=
  List.countP_le_length _

theorem solvedCount_setv_le (m : CMap) (k v : String)
    (h : (getv m k).length = 1 → v = getv m k) :
    solvedCount m ≤ solvedCount (setv m k v) := by
  induction m with
  | nil => exact Nat.le.refl
  | cons p rest ih =>
    obtain ⟨k1, v1⟩ := p
    rw [getv_cons] at h
    rw [setv_cons]
    by_cases hk : k1 = k
    · rw [if_pos hk]
      rw [if_pos hk] at h
      simp only [solvedCount, List.countP_cons]
      by_cases h1 : v1.length = 1
      · rw [h h1]
      · have e1 : (((k1, v1) : String × String).2.length == 1) = false := by
          simpa using h1
        rw [e1]
        simp only [Bool.false_eq_true, if_false, Nat.add_zero]
        exact Nat.le_add_right _ _
    · rw [if_neg hk]
      rw [if_neg hk] at h
      simp only [solvedCount, List.countP_cons]
      exact Nat.add_le_add_right (ih h) _

theorem removeChar_sublist (s : String) (c : Char) :
    (removeChar s c).data.Sublist s.data := by
  simp only [removeChar]
  exact List.filter_sublist _

theorem removeChar_of_length_one (s : String) (c : Char) (h : s.length = 1) :
    removeChar s c = s ∨ removeChar s c = "" := by
  obtain ⟨a, ha⟩ := List.length_eq_one.mp h
  by_cases hc : a = c
  · right
    apply String.ext
    simp [removeChar, ha, hc]
  · left
    apply String.ext
    simp [removeChar, ha, hc]

theorem elimPeer_eq (c : Char) (m : CMap) (p : String) :
    elimPeer c m p = if removeChar (getv m p) c = "" then none
      else some (setv m p (removeChar (getv m p) c)) := rfl

theorem elimPeer_some (c : Char) (m m' : CMap) (p : String)
    (h : elimPeer c m p = some m') :
    removeChar (getv m p) c ≠ "" ∧ m' = setv m p (removeChar (getv m p) c) := by
  rw [elimPeer_eq] at h
  by_cases hc : removeChar (getv m p) c = ""
  · rw [if_pos hc] at h; cases h
  · rw [if_neg hc] at h
    exact ⟨hc, (Option.some.injEq _ _ ▸ h).symm⟩

theorem elimFoldPeers_pws (c : Char) (P : List String) (m m' : CMap)
    (h : P.foldlM (elimPeer c) m = some m') : Pws m' m := by
  induction P generalizing m with
  | nil =>
    simp only [List.foldlM_nil, Option.pure_def, Option.some.injEq] at h
    rw [← h]
    exact Pws_refl m
  | cons p P' ih =>
    rw [List.foldlM_cons] at h
    cases hp : elimPeer c m p with
    | none => rw [hp] at h; cases h
    | some m1 =>
      rw [hp] at h
      simp only [Option.bind_eq_bind, Option.some_bind] at h
      obtain ⟨-, hm1⟩ := elimPeer_some c m m1 p hp
      exact Pws_trans (ih m1 h) (hm1 ▸ Pws_setv (removeChar_sublist _ _))

theorem elimFoldPeers_solved_le (c : Char) (P : List String) (m m' : CMap)
    (h : P.foldlM (elimPeer c) m = some m') : solvedCount m ≤ solvedCount m' := by
  induction P generalizing m with
  | nil =>
    simp only [List.foldlM_nil, Option.pure_def, Option.some.injEq] at h
    rw [← h]
  | cons p P' ih =>
    rw [List.foldlM_cons] at h
    cases hp : elimPeer c m p with
    | none => rw [hp] at h; cases h
    | some m1 =>
      rw [hp] at h
      simp only [Option.bind_eq_bind, Option.some_bind] at h
      obtain ⟨hne, hm1⟩ := elimPeer_some c m m1 p hp
      have hstep : solvedCount m ≤ solvedCount m1 := by
        rw [hm1]
        apply solvedCount_setv_le
        intro h1
        rcases removeChar_of_length_one (getv m p) c h1 with he | he
        · exact he
        · exact absurd he hne
      exact hstep.trans (ih m1 h)

theorem elimFoldPeers_noempty (c : Char) (P : List String) (m m' : CMap)
    (h : P.foldlM (elimPeer c) m = some m') (b : String) (hb : getv m' b = "") :
    getv m b = "" := by
  induction P generalizing m with
  | nil =>
    simp only [List.foldlM_nil, Option.pure_def, Option.some.injEq] at h
    rw [← h] at hb
    exact hb
  | cons p P' ih =>
    rw [List.foldlM_cons] at h
    cases hp : elimPeer c m p with
    | none => rw [hp] at h; cases h
    | some m1 =>
      rw [hp] at h
      simp only [Option.bind_eq_bind, Option.some_bind] at h
      obtain ⟨hne, hm1⟩ := elimPeer_some c m m1 p hp
      have h1 : getv m1 b = "" := ih m1 h
      rw [hm1] at h1
      rcases getv_setv_or m p (removeChar (getv m p) c) b with ho | ho
      · rw [h1] at ho; exact absurd ho.symm hne
      · rw [← ho, h1]

theorem elimBox_pws (m : CMap) (b : String) (m' : CMap) (h : elimBox m b = some m') :
    Pws m' m := by
  unfold elimBox at h
  split at h
  · exact elimFoldPeers_pws _ _ _ _ h
  · simp only [Option.some.injEq] at h
    rw [← h]
    exact Pws_refl m

theorem elimBox_solved_le (m : CMap) (b : String) (m' : CMap) (h : elimBox m b = some m') :
    solvedCount m ≤ solvedCount m' := by
  unfold elimBox at h
  split at h
  · exact elimFoldPeers_solved_le _ _ _ _ h
  · simp only [Option.some.injEq] at h
    rw [← h]

theorem elimBox_noempty (m : CMap) (b : String) (m' : CMap) (h : elimBox m b = some m')
    (x : String) (hx : getv m' x = "") : getv m x = "" := by
  unfold elimBox at h
  split at h
  · exact elimFoldPeers_noempty _ _ _ _ h x hx
  · simp only [Option.some.injEq] at h
    rw [← h] at hx
    exact hx

theorem elimFoldBoxes_pws (L : List String) (m m' : CMap)
    (h : L.foldlM elimBox m = some m') : Pws m' m := by
  induction L generalizing m with
  | nil =>
    simp only [List.foldlM_nil, Option.pure_def, Option.some.injEq] at h
    rw [← h]
    exact Pws_refl m
  | cons b L' ih =>
    rw [List.foldlM_cons] at h
    cases hb : elimBox m b with
    | none => rw [hb] at h; cases h
    | some m1 =>
      rw [hb] at h
      simp only [Option.bind_eq_bind, Option.some_bind] at h
      exact Pws_trans (ih m1 h) (elimBox_pws m b m1 hb)

theorem elimFoldBoxes_solved_le (L : List String) (m m' : CMap)
    (h : L.foldlM elimBox m = some m') : solvedCount m ≤ solvedCount m' := by
  induction L generalizing m with
  | nil =>
    simp only [List.foldlM_nil, Option.pure_def, Option.some.injEq] at h
    rw [← h]
  | cons b L' ih =>
    rw [List.foldlM_cons] at h
    cases hb : elimBox m b with
    | none => rw [hb] at h; cases h
    | some m1 =>
      rw [hb] at h
      simp only [Option.bind_eq_bind, Option.some_bind] at h
      exact (elimBox_solved_le m b m1 hb).trans (ih m1 h)

theorem elimFoldBoxes_noempty (L : List String) (m m' : CMap)
    (h : L.foldlM elimBox m = some m') (x : String) (hx : getv m' x = "") : getv m x = "" := by
  induction L generalizing m with
  | nil =>
    simp only [List.foldlM_nil, Option.pure_def, Option.some.injEq] at h
    rw [← h] at hx
    exact hx
  | cons b L' ih =>
    rw [List.foldlM_cons] at h
    cases hb : elimBox m b with
    | none => rw [hb] at h; cases h
    | some m1 =>
      rw [hb] at h
      simp only [Option.bind_eq_bind, Option.some_bind] at h
      exact elimBox_noempty m b m1 hb x (ih m1 h)

theorem eliminate_pws (m m' : CMap) (h : eliminate m = some m') : Pws m' m :=
  elimFoldBoxes_pws _ m m' h

theorem eliminate_solved_le (m m' : CMap) (h : eliminate m = some m') :
    solvedCount m ≤ solvedCount m' :=
  elimFoldBoxes_solved_le _ m m' h

theorem eliminate_noempty (m m' : CMap) (h : eliminate m = some m') (x : String)
    (hx : getv m' x = "") : getv m x = "" :=
  elimFoldBoxes_noempty _ m m' h x hx

theorem ocStep_eq_or (u : List String) (m : CMap) (d : Char) :
    ocStep u m d = m ∨
      ∃ b, b ∈ u ∧ d ∈ (getv m b).data ∧ ocStep u m d = setv m b (String.mk [d]) := by
  unfold ocStep
  split
  · rename_i b hb
    right
    have hmem : b ∈ u.filter (fun b => decide (d ∈ (getv m b).data)) := by
      rw [hb]
      exact List.mem_singleton.mpr rfl
    refine ⟨b, (List.mem_filter.mp hmem).1, ?_, rfl⟩
    exact of_decide_eq_true (List.mem_filter.mp hmem).2
  · left; rfl

theorem ocStep_pws (u : List String) (m : CMap) (d : Char) : Pws (ocStep u m d) m := by
  rcases ocStep_eq_or u m d with h | ⟨b, -, hd, h⟩
  · rw [h]; exact Pws_refl m
  · rw [h]
    exact Pws_setv (List.singleton_sublist.mpr hd)

theorem ocStep_solved_le (u : List String) (m : CMap) (d : Char) :
    solvedCount m ≤ solvedCount (ocStep u m d) := by
  rcases ocStep_eq_or u m d with h | ⟨b, -, hd, h⟩
  · rw [h]
  · rw [h]
    apply solvedCount_setv_le
    intro h1
    obtain ⟨a, ha⟩ := List.length_eq_one.mp h1
    rw [ha] at hd
    apply String.ext
    rw [ha]
    rcases List.mem_singleton.mp hd with rfl
    rfl

theorem ocFoldDigits_pws (u : List String) (ds : List Char) (m : CMap) :
    Pws (ds.foldl (ocStep u) m) m := by
  induction ds generalizing m with
  | nil => exact Pws_refl m
  | cons d ds' ih =>
    rw [List.foldl_cons]
    exact Pws_trans (ih _) (ocStep_pws u m d)

theorem ocFoldDigits_solved_le (u : List String) (ds : List Char) (m : CMap) :
    solvedCount m ≤ solvedCount (ds.foldl (ocStep u) m) := by
  induction ds generalizing m with
  | nil => exact Nat.le.refl
  | cons d ds' ih =>
    rw [List.foldl_cons]
    exact (ocStep_solved_le u m d).trans (ih _)

theorem only_choice_pws (m : CMap) : Pws (only_choice m) m := by
  unfold only_choice
  generalize units = us
  induction us generalizing m with
  | nil => exact Pws_refl m
  | cons u us' ih =>
    rw [List.foldl_cons]
    exact Pws_trans (ih _) (ocFoldDigits_pws u _ m)

theorem only_choice_solved_le (m : CMap) : solvedCount m ≤ solvedCount (only_choice m) := by
  unfold only_choice
  generalize units = us
  induction us generalizing m with
  | nil => exact Nat.le.refl
  | cons u us' ih =>
    rw [List.foldl_cons]
    exact (ocFoldDigits_solved_le u _ m).trans (ih _)

/-- One iteration of `reduce_puzzle`'s `while True` loop; `next` is what the
loop does when the solved count changed (run another iteration). -/
def reduceStep (m : CMap) (next : CMap → Option CMap) : Option CMap :=
  match eliminate m with
  | none => none
  | some m1 =>
    if m1 = [] then none
    else
      if only_choice m1 = [] then none
      else if solvedCount (only_choice m1) = solvedCount m then some (only_choice m1)
      else next (only_choice m1)

/-- The loop with an explicit iteration budget.  Every continued iteration
changes some box's candidate string, and all changes strictly shrink total
candidate length, so `sumLen m + 1` iterations always suffice;
`reduce_puzzle` supplies that budget and `reduce_puzzle_eq` recovers the
budget-free loop equation of the source. -/
def reduceGo : Nat → CMap → Option CMap
  | 0, _ => none
  | fuel + 1, m => reduceStep m (reduceGo fuel)

/-- `reduce_puzzle(values)`: repeatedly apply `eliminate` and `only_choice`
until the number of solved boxes stops increasing; `none` models `return
False`.  Python's `if not x` treats both `False` and an empty dict as falsy,
hence the `= []` checks after each strategy. -/
def reduce_puzzle (m : CMap) : Option CMap := reduceGo (sumLen m + 1) m

theorem reduceGo_succ (fuel : Nat) (m : CMap) :
    reduceGo (fuel + 1) m = reduceStep m (reduceGo fuel) := rfl

theorem reduceStep_none (m : CMap) (next : CMap → Option CMap)
    (he : eliminate m = none) : reduceStep m next = none := by
  unfold reduceStep
  rw [he]

theorem reduceStep_some (m : CMap) (next : CMap → Option CMap) (m1 : CMap)
    (he : eliminate m = some m1) :
    reduceStep m next =
      if m1 = [] then none
      else
        if only_choice m1 = [] then none
        else if solvedCount (only_choice m1) = solvedCount m then some (only_choice m1)
        else next (only_choice m1) := by
  unfold reduceStep
  rw [he]

theorem loop_sumLen_lt (m m1 : CMap) (he : eliminate m = some m1)
    (hc : solvedCount (only_choice m1) ≠ solvedCount m) :
    sumLen (only_choice m1) < sumLen m := by
  have hp : Pws (only_choice m1) m :=
    Pws_trans (only_choice_pws m1) (eliminate_pws m m1 he)
  exact Pws_sumLen_lt hp (fun hh => hc (congrArg solvedCount hh))

theorem reduceGo_irrel (f1 : Nat) : ∀ f2 m, sumLen m < f1 → sumLen m < f2 →
    reduceGo f1 m = reduceGo f2 m := by
  induction f1 with
  | zero => intro f2 m h1 _; exact absurd h1 (Nat.not_lt_zero _)
  | succ f1' ih =>
    intro f2 m h1 h2
    cases f2 with
    | zero => exact absurd h2 (Nat.not_lt_zero _)
    | succ f2' =>
      rw [reduceGo_succ, reduceGo_succ]
      cases he : eliminate m with
      | none => rw [reduceStep_none m _ he, reduceStep_none m _ he]
      | some m1 =>
        rw [reduceStep_some m _ m1 he, reduceStep_some m _ m1 he]
        by_cases hm1 : m1 = []
        · rw [if_pos hm1, if_pos hm1]
        · rw [if_neg hm1, if_neg hm1]
          by_cases hm2 : only_choice m1 = []
          · rw [if_pos hm2, if_pos hm2]
          · rw [if_neg hm2, if_neg hm2]
            by_cases hcnt : solvedCount (only_choice m1) = solvedCount m
            · rw [if_pos hcnt, if_pos hcnt]
            · rw [if_neg hcnt, if_neg hcnt]
              have hlt := loop_sumLen_lt m m1 he hcnt
              exact ih f2' (only_choice m1) (by omega) (by omega)

/-- The defining equation of the source's `while True` loop. -/
theorem reduce_puzzle_eq (m : CMap) :
    reduce_puzzle m = reduceStep m reduce_puzzle := by
  show reduceGo (sumLen m + 1) m = reduceStep m reduce_puzzle
  rw [reduceGo_succ]
  cases he : eliminate m with
  | none => rw [reduceStep_none m _ he, reduceStep_none m _ he]
  | some m1 =>
    rw [reduceStep_some m _ m1 he, reduceStep_some m _ m1 he]
    by_cases hm1 : m1 = []
    · rw [if_pos hm1, if_pos hm1]
    · rw [if_neg hm1, if_neg hm1]
      by_cases hm2 : only_choice m1 = []
      · rw [if_pos hm2, if_pos hm2]
      · rw [if_neg hm2, if_neg hm2]
        by_cases hcnt : solvedCount (only_choice m1) = solvedCount m
        · rw [if_pos hcnt, if_pos hcnt]
        · rw [if_neg hcnt, if_neg hcnt]
          have hlt := loop_sumLen_lt m m1 he hcnt
          exact reduceGo_irrel _ _ _ (by omega) (by omega)

/-- Every successful `reduce_puzzle` run only shrinks the map, and its result
is the `only_choice` image of a successful elimination whose solved count
already matched the iteration's starting count (the loop's exit state). -/
theorem reduce_puzzle_spec : ∀ (n : Nat) (m r : CMap), sumLen m ≤ n →
    reduce_puzzle m = some r →
    Pws r m ∧ ∃ v v1, Pws v m ∧ eliminate v = some v1 ∧ only_choice v1 = r ∧
      solvedCount r = solvedCount v := by
  intro n
  induction n with
  | zero =>
    intro m r hn h
    rw [reduce_puzzle_eq] at h
    cases he : eliminate m with
    | none => rw [reduceStep_none m _ he] at h; cases h
    | some m1 =>
      rw [reduceStep_some m _ m1 he] at h
      by_cases hm1 : m1 = []
      · rw [if_pos hm1] at h; cases h
      · rw [if_neg hm1] at h
        by_cases hm2 : only_choice m1 = []
        · rw [if_pos hm2] at h; cases h
        · rw [if_neg hm2] at h
          by_cases hcnt : solvedCount (only_choice m1) = solvedCount m
          · rw [if_pos hcnt] at h
            simp only [Option.some.injEq] at h
            subst h
            exact ⟨Pws_trans (only_choice_pws m1) (eliminate_pws m m1 he),
              m, m1, Pws_refl m, he, rfl, hcnt⟩
          · rw [if_neg hcnt] at h
            have hlt := loop_sumLen_lt m m1 he hcnt
            omega
  | succ n' ih =>
    intro m r hn h
    rw [reduce_puzzle_eq] at h
    cases he : eliminate m with
    | none => rw [reduceStep_none m _ he] at h; cases h
    | some m1 =>
      rw [reduceStep_some m _ m1 he] at h
      by_cases hm1 : m1 = []
      · rw [if_pos hm1] at h; cases h
      · rw [if_neg hm1] at h
        by_cases hm2 : only_choice m1 = []
        · rw [if_pos hm2] at h; cases h
        · rw [if_neg hm2] at h
          by_cases hcnt : solvedCount (only_choice m1) = solvedCount m
          · rw [if_pos hcnt] at h
            simp only [Option.some.injEq] at h
            subst h
            exact ⟨Pws_trans (only_choice_pws m1) (eliminate_pws m m1 he),
              m, m1, Pws_refl m, he, rfl, hcnt⟩
          · rw [if_neg hcnt] at h
            have hlt := loop_sumLen_lt m m1 he hcnt
            have hpm : Pws (only_choice m1) m :=
              Pws_trans (only_choice_pws m1) (eliminate_pws m m1 he)
            obtain ⟨hpr, v, v1, hpv, hev, hov, hcv⟩ :=
              ih (only_choice m1) r (by omega) h
            exact ⟨Pws_trans hpr hpm, v, v1, Pws_trans hpv hpm, hev, hov, hcv⟩

theorem reduce_puzzle_pws (m r : CMap) (h : reduce_puzzle m = some r) : Pws r m :=
  (reduce_puzzle_spec (sumLen m) m r Nat.le.refl h).1

/-- Python's tuple comparison `(box1, len1) < (box2, len2)`: the box name is
compared first, the candidate count only on equal names. -/
def pairLt (p q : String × Nat) : Bool :=
  strLt p.1 q.1 || (p.1 == q.1 && decide (p.2 < q.2))

/-- Python `min` over the generated pairs: the first minimal element.  `min`
of an empty sequence raises `ValueError`; that case (modelled as `none`) is
unreachable from `solve`, where some box is unsolved whenever the solved check
fails and no candidate string is empty. -/
def minPairs : List (String × Nat) → Option (String × Nat)
  | [] => none
  | p :: rest => some (rest.foldl (fun acc q => if pairLt q acc = true then q else acc) p)

/-- The branching-box selection of `search`:
`min((box, len(values[box])) for box in boxes if len(values[box]) > 1)`. -/
def chooseBox (m : CMap) : Option (String × Nat) :=
  minPairs ((boxes.filter (fun b => decide (1 < (getv m b).length))).map
    (fun b => (b, (getv m b).length)))

theorem foldlMin_mem (rest : List (String × Nat)) :
    ∀ p, rest.foldl (fun acc q => if pairLt q acc = true then q else acc) p ∈ p :: rest := by
  induction rest with
  | nil => intro p; exact List.mem_singleton.mpr rfl
  | cons q rest' ih =>
    intro p
    rw [List.foldl_cons]
    by_cases hc : pairLt q p = true
    · rw [if_pos hc]
      exact List.mem_cons.mpr (Or.inr (ih q))
    · rw [if_neg hc]
      rcases List.mem_cons.mp (ih p) with h | h
      · exact List.mem_cons.mpr (Or.inl h)
      · exact List.mem_cons.mpr (Or.inr (List.mem_cons.mpr (Or.inr h)))

theorem minPairs_mem (l : List (String × Nat)) (p : String × Nat)
    (h : minPairs l = some p) : p ∈ l := by
  cases l with
  | nil => cases h
  | cons q rest =>
    simp only [minPairs, Option.some.injEq] at h
    rw [← h]
    exact foldlMin_mem rest q

theorem chooseBox_facts (m : CMap) (bn : String × Nat) (h : chooseBox m = some bn) :
    bn.1 ∈ boxes ∧ 1 < (getv m bn.1).length ∧ bn.2 = (getv m bn.1).length := by
  have hmem := minPairs_mem _ _ h
  obtain ⟨b', hb', heq⟩ := List.mem_map.mp hmem
  obtain ⟨hbx, hlt⟩ := List.mem_filter.mp hb'
  obtain ⟨h1, h2⟩ := Prod.mk.injEq .. ▸ heq
  subst h1
  exact ⟨hbx, of_decide_eq_true hlt, h2.symm⟩

theorem chooseBox_keylen (m : CMap) (bn : String × Nat) (h : chooseBox m = some bn) :
    bn.1 ∈ m.map Prod.fst ∧ 2 ≤ (getv m bn.1).length := by
  obtain ⟨-, hlt, -⟩ := chooseBox_facts m bn h
  refine ⟨mem_of_getv_ne m bn.1 (fun hh => ?_), hlt⟩
  rw [hh] at hlt
  exact absurd hlt (by decide)

mutual
/-- `search(values)`: reduce, return the map if every box is solved, else
branch (DFS) over the candidates of the `min`-selected box.  `none` covers both
`return False` and the implicit `return None` of an exhausted loop; Python's
`if not reduce_puzzle(values)` and `if attempt:` also treat an empty dict as
falsy, hence the `= []` checks. -/
def search (m : CMap) : Option CMap :=
  match hr : reduce_puzzle m with
  | none => none
  | some mr =>
    if mr = [] then none
    else
      if boxes.all (fun s => (getv mr s).length == 1) = true then some mr
      else
        match hc : chooseBox mr with
        | none => none
        | some bn =>
          tryCands mr bn.1 (getv mr bn.1).data (chooseBox_keylen mr bn hc).1
            (chooseBox_keylen mr bn hc).2
termination_by (sumLen m, 1, 0)
decreasing_by
  · have hle : sumLen mr ≤ sumLen m := Pws_sumLen_le (reduce_puzzle_pws m mr hr)
    rcases Nat.lt_or_ge (sumLen mr) (sumLen m) with hlt | hge
    · exact Prod.Lex.left _ _ hlt
    · have heq : sumLen mr = sumLen m := Nat.le_antisymm hle hge
      rw [heq]
      exact Prod.Lex.right _ (Prod.Lex.left _ _ (by decide))

/-- The `for value in values[box]` loop of `search`: copy the map, overwrite
the chosen box with the single candidate, recurse, and return the first truthy
attempt. -/
def tryCands (mr : CMap) (b : String) (cs : List Char) (hb : b ∈ mr.map Prod.fst)
    (hlen : 2 ≤ (getv mr b).length) : Option CMap :=
  match cs with
  | [] => none
  | c :: rest =>
    match search (setv mr b (String.mk [c])) with
    | some r => if r = [] then tryCands mr b rest hb hlen else some r
    | none => tryCands mr b rest hb hlen
termination_by (sumLen mr, 0, cs.length)
decreasing_by
  · have hlt : sumLen (setv mr b (String.mk [c])) < sumLen mr := by
      apply sumLen_setv_lt mr b _ hb
      have : (String.mk [c]).length = 1 := rfl
      omega
    exact Prod.Lex.left _ _ hlt
  · exact Prod.Lex.right _ (Prod.Lex.right _ (Nat.lt_succ_self _))
end

/-- `solve(grid)`: parse the grid and search.  The `VisualizibleDict` wrapper
only records assignment history; it does not change the resulting map. -/
def solve (g : String) : Option CMap := search (grid_values g)

theorem foldl_id {α : Type} (f : CMap → α → CMap) (L : List α) (m : CMap)
    (h : ∀ a ∈ L, f m a = m) : L.foldl f m = m := by
  induction L with
  | nil => rfl
  | cons a L' ih =>
    rw [List.foldl_cons, h a (List.mem_cons_self a L')]
    exact ih (fun x hx => h x (List.mem_cons.mpr (Or.inr hx)))

theorem removeChar_singleton_ne (a c : Char) (h : a ≠ c) :
    removeChar (String.mk [a]) c = String.mk [a] := by
  apply String.ext
  simp [removeChar, h]

theorem removeChar_singleton_eq (c : Char) : removeChar (String.mk [c]) c = "" := by
  apply String.ext
  simp [removeChar]

theorem string_eq_singleton_of_data (s : String) (c : Char) (h : s.data = [c]) :
    s = String.mk [c] :=
  String.ext h

theorem data_singleton_of_length_one (s : String) (h : s.length = 1) :
    ∃ c, s.data = [c] :=
  List.length_eq_one.mp h

/-- On a map whose boxes are all solved, a successful elimination changes
nothing and certifies that no box shares its digit with one of its peers. -/
theorem elimFoldPeers_solved_id (c : Char) (v : String) (hv : v = String.mk [c]) :
    ∀ (P : List String) (m : CMap), (∀ p ∈ P, (getv m p).length = 1) →
    ∀ m1, P.foldlM (elimPeer c) m = some m1 →
    m1 = m ∧ ∀ p ∈ P, getv m p ≠ v := by
  intro P
  induction P with
  | nil =>
    intro m _ m1 h
    simp only [List.foldlM_nil, Option.pure_def, Option.some.injEq] at h
    exact ⟨h.symm, fun p hp => absurd hp (List.not_mem_nil p)⟩
  | cons p P' ih =>
    intro m hall m1 h
    rw [List.foldlM_cons] at h
    obtain ⟨a, ha⟩ := data_singleton_of_length_one _ (hall p (List.mem_cons_self p P'))
    have hpa : getv m p = String.mk [a] := string_eq_singleton_of_data _ a ha
    by_cases hac : a = c
    · have : elimPeer c m p = none := by
        rw [elimPeer_eq, hpa, hac, removeChar_singleton_eq, if_pos rfl]
      rw [this] at h
      cases h
    · have hrc : removeChar (getv m p) c = getv m p := by
        rw [hpa]
        exact removeChar_singleton_ne a c hac
      have hstep : elimPeer c m p = some m := by
        rw [elimPeer_eq, hrc]
        rw [if_neg (fun hh : getv m p = "" => by rw [hh] at ha; cases ha)]
        rw [setv_getv_self]
      rw [hstep] at h
      simp only [Option.bind_eq_bind, Option.some_bind] at h
      obtain ⟨h1, h2⟩ := ih m (fun q hq => hall q (List.mem_cons.mpr (Or.inr hq))) m1 h
      refine ⟨h1, fun q hq => ?_⟩
      rcases List.mem_cons.mp hq with rfl | hq'
      · rw [hpa, hv]
        intro hh
        have h4 : [a] = [c] := congrArg String.data hh
        injection h4 with h5 h6
        exact hac h5
      · exact h2 q hq'

set_option maxRecDepth 10000 in
theorem boxes_length : boxes.length = 81 := by decide

set_option maxRecDepth 10000 in
theorem boxes_nodup : boxes.Nodup := by decide

set_option maxRecDepth 10000 in
theorem units_sub_boxes : ∀ u ∈ units, ∀ b ∈ u, b ∈ boxes := by decide

set_option maxRecDepth 40000 in
theorem peers_sub_boxes : ∀ b ∈ boxes, ∀ p ∈ box_peers b, p ∈ boxes := by decide

set_option maxRecDepth 40000 in
theorem unit_pair_peers : ∀ u ∈ units, ∀ b1 ∈ u, ∀ b2 ∈ u, b1 = b2 ∨ b2 ∈ box_peers b1 := by
  decide

set_option maxRecDepth 10000 in
theorem units_length_nine : ∀ u ∈ units, u.length = 9 := by decide

set_option maxRecDepth 10000 in
theorem units_nodup : ∀ u ∈ units, u.Nodup := by decide

/-- `elimBox` on an all-solved map: success leaves the map unchanged and
certifies the box's digit clashes with no peer. -/
theorem elimBox_solved_id (m : CMap) (b : String) (hb : (getv m b).length = 1)
    (hpe : ∀ p ∈ box_peers b, (getv m p).length = 1)
    (m1 : CMap) (h : elimBox m b = some m1) :
    m1 = m ∧ ∀ p ∈ box_peers b, getv m p ≠ getv m b := by
  obtain ⟨c, hc⟩ := data_singleton_of_length_one _ hb
  have hbv : getv m b = String.mk [c] := string_eq_singleton_of_data _ c hc
  unfold elimBox at h
  rw [hc] at h
  obtain ⟨h1, h2⟩ := elimFoldPeers_solved_id c (getv m b) hbv (box_peers b) m hpe m1 h
  exact ⟨h1, h2⟩

/-- A successful elimination on a map whose boxes are all solved is the
identity, and no box of the map shares its digit with one of its peers. -/
theorem eliminate_solved_id (m : CMap) (hk : m.map Prod.fst = boxes)
    (hall : ∀ b ∈ boxes, (getv m b).length = 1)
    (m' : CMap) (h : eliminate m = some m') :
    m' = m ∧ ∀ b ∈ boxes, ∀ p ∈ box_peers b, getv m p ≠ getv m b := by
  unfold eliminate at h
  rw [hk] at h
  suffices hgen : ∀ L : List String, (∀ x ∈ L, x ∈ boxes) →
      ∀ m1, L.foldlM elimBox m = some m1 →
      m1 = m ∧ ∀ b ∈ L, ∀ p ∈ box_peers b, getv m p ≠ getv m b by
    exact hgen boxes (fun x hx => hx) m' h
  intro L
  induction L with
  | nil =>
    intro _ m1 h1
    simp only [List.foldlM_nil, Option.pure_def, Option.some.injEq] at h1
    exact ⟨h1.symm, fun b hb => absurd hb (List.not_mem_nil b)⟩
  | cons b L' ih =>
    intro hsub m1 h1
    rw [List.foldlM_cons] at h1
    cases hstep : elimBox m b with
    | none => rw [hstep] at h1; cases h1
    | some m2 =>
      rw [hstep] at h1
      simp only [Option.bind_eq_bind, Option.some_bind] at h1
      have hbx : b ∈ boxes := hsub b (List.mem_cons_self b L')
      obtain ⟨h2, h3⟩ := elimBox_solved_id m b (hall b hbx)
        (fun p hp => hall p (peers_sub_boxes b hbx p hp)) m2 hstep
      subst h2
      obtain ⟨h4, h5⟩ := ih (fun x hx => hsub x (List.mem_cons.mpr (Or.inr hx))) m1 h1
      refine ⟨h4, fun x hx => ?_⟩
      rcases List.mem_cons.mp hx with rfl | hx'
      · exact h3
      · exact h5 x hx'

/-- Converse: an all-solved map on which no box clashes with a peer is a
fixed point of `eliminate`, with success. -/
theorem eliminate_solved_ok (m : CMap) (hk : m.map Prod.fst = boxes)
    (hall : ∀ b ∈ boxes, (getv m b).length = 1)
    (hdist : ∀ b ∈ boxes, ∀ p ∈ box_peers b, getv m p ≠ getv m b) :
    eliminate m = some m := by
  unfold eliminate
  rw [hk]
  suffices hgen : ∀ L : List String, (∀ x ∈ L, x ∈ boxes) →
      L.foldlM elimBox m = some m by
    exact hgen boxes (fun x hx => hx)
  intro L
  induction L with
  | nil => intro _; rfl
  | cons b L' ih =>
    intro hsub
    rw [List.foldlM_cons]
    have hbx : b ∈ boxes := hsub b (List.mem_cons_self b L')
    obtain ⟨c, hc⟩ := data_singleton_of_length_one _ (hall b hbx)
    have hbv : getv m b = String.mk [c] := string_eq_singleton_of_data _ c hc
    have hstep : elimBox m b = some m := by
      unfold elimBox
      rw [hc]
      suffices hin : ∀ P : List String, (∀ p ∈ P, p ∈ box_peers b) →
          P.foldlM (elimPeer c) m = some m by
        exact hin (box_peers b) (fun p hp => hp)
      intro P
      induction P with
      | nil => intro _; rfl
      | cons p P' ihp =>
        intro hp
        rw [List.foldlM_cons]
        have hpp : p ∈ box_peers b := hp p (List.mem_cons_self p P')
        obtain ⟨a, ha⟩ :=
          data_singleton_of_length_one _ (hall p (peers_sub_boxes b hbx p hpp))
        have hpv : getv m p = String.mk [a] := string_eq_singleton_of_data _ a ha
        have hac : a ≠ c := by
          intro hh
          exact hdist b hbx p hpp (by rw [hpv, hbv, hh])
        have hrc : removeChar (getv m p) c = getv m p := by
          rw [hpv]
          exact removeChar_singleton_ne a c hac
        have hstep2 : elimPeer c m p = some m := by
          rw [elimPeer_eq, hrc]
          rw [if_neg (fun hh : getv m p = "" => by rw [hh] at ha; cases ha)]
          rw [setv_getv_self]
        rw [hstep2]
        simp only [Option.bind_eq_bind, Option.some_bind]
        exact ihp (fun q hq => hp q (List.mem_cons.mpr (Or.inr hq)))
    rw [hstep]
    simp only [Option.bind_eq_bind, Option.some_bind]
    exact ih (fun x hx => hsub x (List.mem_cons.mpr (Or.inr hx)))

/-- `only_choice` is the identity on an all-solved map. -/
theorem only_choice_solved_id (m : CMap) (hall : ∀ b ∈ boxes, (getv m b).length = 1) :
    only_choice m = m := by
  unfold only_choice
  apply foldl_id
  intro u hu
  apply foldl_id
  intro d hd
  rcases ocStep_eq_or u m d with h | ⟨b, hb, hdd, h⟩
  · exact h
  · rw [h]
    have hbx : b ∈ boxes := units_sub_boxes u hu b hb
    obtain ⟨a, ha⟩ := data_singleton_of_length_one _ (hall b hbx)
    rw [ha] at hdd
    rcases List.mem_singleton.mp hdd with rfl
    rw [← string_eq_singleton_of_data _ d ha, setv_getv_self]

/-- Every candidate string draws its characters from `'123456789'` (true of
`grid_values` output and preserved by every solver operation). -/
def charsOK (m : CMap) : Prop :=
  ∀ b : String, (getv m b).data ⊆ ("123456789" : String).data

/-- Every box is resolved to exactly one candidate. -/
def allSolved (m : CMap) : Prop := ∀ b ∈ boxes, (getv m b).length = 1

/-- Every unit contains each digit `1`–`9` exactly once. -/
def unitsValid (m : CMap) : Prop :=
  ∀ u ∈ units, ∀ d ∈ ("123456789" : String).data,
    u.countP (fun b => getv m b == String.mk [d]) = 1

/-- A fully and correctly solved grid (rows, columns, blocks and both
diagonals are all units). -/
def validSolvedGrid (m : CMap) : Prop := allSolved m ∧ unitsValid m

theorem charsOK_of_pws (m' m : CMap) (hp : Pws m' m) (hc : charsOK m) : charsOK m' :=
  fun b => fun c hcc => hc b ((Pws_getv hp b).subset hcc)

/-- The nine singleton digit strings. -/
def digitStrings : List String :=
  ("123456789" : String).data.map (fun d => String.mk [d])

set_option maxRecDepth 10000 in
theorem digitStrings_count : ∀ d ∈ ("123456789" : String).data,
    digitStrings.countP (fun s => s == String.mk [d]) = 1 := by decide

theorem solvedCount_eq_keys (m : CMap) (hnd : (m.map Prod.fst).Nodup) :
    solvedCount m = (m.map Prod.fst).countP (fun b => (getv m b).length == 1) := by
  induction m with
  | nil => rfl
  | cons p rest ih =>
    obtain ⟨k, v⟩ := p
    rw [List.map_cons, List.nodup_cons] at hnd
    obtain ⟨hk, hnd'⟩ := hnd
    rw [List.map_cons, List.countP_cons]
    have e2 : (rest.map Prod.fst).countP (fun b => (getv ((k, v) :: rest) b).length == 1)
        = (rest.map Prod.fst).countP (fun b => (getv rest b).length == 1) := by
      apply List.countP_congr
      intro b hb
      have hbk : k ≠ b := fun hh => hk (hh ▸ hb)
      rw [getv_cons, if_neg hbk]
    have e1 : getv ((k, v) :: rest) k = v := by rw [getv_cons, if_pos rfl]
    rw [e2, ← ih hnd']
    simp only [solvedCount, List.countP_cons, e1]

theorem allSolved_iff_count (m : CMap) (hk : m.map Prod.fst = boxes) :
    allSolved m ↔ solvedCount m = 81 := by
  have hnd : (m.map Prod.fst).Nodup := by rw [hk]; exact boxes_nodup
  rw [solvedCount_eq_keys m hnd, hk]
  constructor
  · intro h
    have : boxes.countP (fun b => (getv m b).length == 1) = boxes.length :=
      List.countP_eq_length.mpr (fun b hb => by
        simp only [beq_iff_eq]
        exact h b hb)
    rw [this, boxes_length]
  · intro h b hb
    have : boxes.countP (fun b => (getv m b).length == 1) = boxes.length := by
      rw [h, boxes_length]
    have h2 := List.countP_eq_length.mp this b hb
    simpa using h2

/-- The key soundness step: if reduction succeeds and leaves every box solved,
the result is a valid solved grid (digits distinct in every unit). -/
theorem reduced_solved_valid (m r : CMap) (hk : m.map Prod.fst = boxes)
    (hchars : charsOK m) (hred : reduce_puzzle m = some r)
    (hall : allSolved r) : validSolvedGrid r := by
  have hpr : Pws r m := reduce_puzzle_pws m r hred
  have hkr : r.map Prod.fst = boxes := by rw [Pws_keys hpr, hk]
  have hcr : charsOK r := charsOK_of_pws r m hpr hchars
  obtain ⟨-, v, v1, hpv, hev, hov, hcv⟩ :=
    reduce_puzzle_spec (sumLen m) m r Nat.le.refl hred
  have hkv : v.map Prod.fst = boxes := by rw [Pws_keys hpv, hk]
  have hcnt_r : solvedCount r = 81 := (allSolved_iff_count r hkr).mp hall
  have hcnt_v : solvedCount v = 81 := by rw [← hcv]; exact hcnt_r
  have hallv : allSolved v := (allSolved_iff_count v hkv).mpr hcnt_v
  obtain ⟨hv1, hdist⟩ := eliminate_solved_id v hkv hallv v1 hev
  have hrv : r = v := by rw [← hov, hv1, only_choice_solved_id v hallv]
  rw [← hrv] at hdist
  refine ⟨hall, ?_⟩
  intro u hu d hd
  have hinj : ∀ x ∈ u, ∀ y ∈ u, getv r x = getv r y → x = y := by
    intro x hx y hy hxy
    by_contra hne
    rcases unit_pair_peers u hu x hx y hy with heq | hpeer
    · exact hne heq
    · exact hdist x (units_sub_boxes u hu x hx) y hpeer hxy.symm
  have hndimg : (u.map (getv r)).Nodup := List.Nodup.map_on hinj (units_nodup u hu)
  have hsub : (u.map (getv r)) ⊆ digitStrings := by
    intro s hs
    obtain ⟨b, hb, rfl⟩ := List.mem_map.mp hs
    have hbx := units_sub_boxes u hu b hb
    obtain ⟨c, hc⟩ := data_singleton_of_length_one _ (hall b hbx)
    have hcd : c ∈ ("123456789" : String).data := by
      apply hcr b
      rw [hc]
      exact List.mem_singleton.mpr rfl
    rw [string_eq_singleton_of_data _ c hc]
    exact List.mem_map.mpr ⟨c, hcd, rfl⟩
  have hlen9 : digitStrings.length ≤ (u.map (getv r)).length := by
    rw [List.length_map, units_length_nine u hu]
    exact Nat.le.refl
  have hperm : (u.map (getv r)).Perm digitStrings :=
    (List.subperm_of_subset hndimg hsub).perm_of_length_le hlen9
  have e1 : u.countP (fun b => getv r b == String.mk [d])
      = (u.map (getv r)).countP (fun s => s == String.mk [d]) := by
    rw [List.countP_map]
    rfl
  rw [e1, hperm.countP_eq, digitStrings_count d hd]

theorem tryCands_nil (mr : CMap) (b : String) (hb : b ∈ mr.map Prod.fst)
    (hlen : 2 ≤ (getv mr b).length) : tryCands mr b [] hb hlen = none := by
  rw [tryCands.eq_def]

theorem tryCands_cons (mr : CMap) (b : String) (c : Char) (rest : List Char)
    (hb : b ∈ mr.map Prod.fst) (hlen : 2 ≤ (getv mr b).length) :
    tryCands mr b (c :: rest) hb hlen =
      match search (setv mr b (String.mk [c])) with
      | some r => if r = [] then tryCands mr b rest hb hlen else some r
      | none => tryCands mr b rest hb hlen := by
  rw [tryCands.eq_def]

theorem getv_le_sumLen (m : CMap) (k : String) (hk : k ∈ m.map Prod.fst) :
    (getv m k).length ≤ sumLen m := by
  induction m with
  | nil => simp at hk
  | cons p rest ih =>
    obtain ⟨k1, v1⟩ := p
    rw [getv_cons]
    simp only [sumLen, List.map_cons, List.sum_cons]
    by_cases h : k1 = k
    · rw [if_pos h]
      exact Nat.le_add_right _ _
    · rw [if_neg h]
      rw [List.map_cons, List.mem_cons] at hk
      rcases hk with hk | hk
      · exact absurd hk.symm h
      · have := ih hk
        simp only [sumLen] at this
        omega

/-- Soundness of the DFS candidate loop, given soundness of `search` on
strictly smaller maps. -/
theorem tryCands_sound (N : Nat)
    (SIH : ∀ m2 r2 : CMap, sumLen m2 < N → search m2 = some r2 →
      Pws r2 m2 ∧ (m2.map Prod.fst = boxes → charsOK m2 → validSolvedGrid r2)) :
    ∀ (cs : List Char) (mr : CMap) (b : String)
      (hb : b ∈ mr.map Prod.fst) (hlen : 2 ≤ (getv mr b).length),
      (∀ c ∈ cs, c ∈ (getv mr b).data) → sumLen mr ≤ N →
      ∀ r : CMap, tryCands mr b cs hb hlen = some r →
      Pws r mr ∧ (mr.map Prod.fst = boxes → charsOK mr → validSolvedGrid r) := by
  intro cs
  induction cs with
  | nil =>
    intro mr b hb hlen hcs hn r h
    rw [tryCands_nil] at h
    cases h
  | cons c rest ihc =>
    intro mr b hb hlen hcs hn r h
    rw [tryCands_cons] at h
    have hlt : sumLen (setv mr b (String.mk [c])) < sumLen mr := by
      apply sumLen_setv_lt mr b _ hb
      have h1 : (String.mk [c]).length = 1 := rfl
      omega
    have hpset : Pws (setv mr b (String.mk [c])) mr :=
      Pws_setv (List.singleton_sublist.mpr (hcs c (List.mem_cons_self c rest)))
    split at h
    · rename_i r2 hs2
      by_cases hr2 : r2 = []
      · rw [if_pos hr2] at h
        exact ihc mr b hb hlen (fun x hx => hcs x (List.mem_cons.mpr (Or.inr hx))) hn r h
      · rw [if_neg hr2] at h
        simp only [Option.some.injEq] at h
        subst h
        obtain ⟨hp2, hv2⟩ := SIH _ r2 (by omega) hs2
        refine ⟨Pws_trans hp2 hpset, fun hk hc => ?_⟩
        apply hv2
        · rw [setv_map_fst, hk]
        · exact charsOK_of_pws _ mr hpset hc
    · exact ihc mr b hb hlen (fun x hx => hcs x (List.mem_cons.mpr (Or.inr hx))) hn r h

/-- Soundness of `search`: a returned map only shrinks the input, and on a
candidate map over the 81 boxes with digit candidates it is a valid solved
grid. -/
theorem search_sound : ∀ (N : Nat) (m r : CMap), sumLen m ≤ N → search m = some r →
    Pws r m ∧ (m.map Prod.fst = boxes → charsOK m → validSolvedGrid r) := by
  intro N
  induction N using Nat.strong_induction_on with
  | _ N ih =>
    intro m r hN h
    rw [search.eq_def] at h
    split at h
    · cases h
    · rename_i mr hred
      by_cases hmr : mr = []
      · rw [if_pos hmr] at h; cases h
      · rw [if_neg hmr] at h
        have hpws_mr : Pws mr m := reduce_puzzle_pws m mr hred
        by_cases hsol : boxes.all (fun s => (getv mr s).length == 1) = true
        · rw [if_pos hsol] at h
          simp only [Option.some.injEq] at h
          subst h
          refine ⟨hpws_mr, fun hk hc => ?_⟩
          have hall : allSolved mr := fun b hb => by
            simpa using List.all_eq_true.mp hsol b hb
          exact reduced_solved_valid m mr hk hc hred hall
        · rw [if_neg hsol] at h
          split at h
          · cases h
          · rename_i bn hcb
            have hcsub : ∀ c ∈ (getv mr bn.1).data, c ∈ (getv mr bn.1).data :=
              fun c hc => hc
            have hle : sumLen mr ≤ sumLen m := Pws_sumLen_le hpws_mr
            cases hNz : N with
            | zero =>
              have hk1 := (chooseBox_keylen mr bn hcb).1
              have hk2 := (chooseBox_keylen mr bn hcb).2
              have hge : 2 ≤ sumLen mr := by
                calc 2 ≤ (getv mr bn.1).length := hk2
                  _ ≤ sumLen mr := getv_le_sumLen mr bn.1 hk1
              omega
            | succ N' =>
              have hSIH : ∀ m2 r2 : CMap, sumLen m2 < sumLen mr →
                  search m2 = some r2 →
                  Pws r2 m2 ∧ (m2.map Prod.fst = boxes → charsOK m2 → validSolvedGrid r2) := by
                intro m2 r2 hlt2 hs2
                exact ih (sumLen m2) (by omega) m2 r2 Nat.le.refl hs2
              obtain ⟨hp, hv⟩ := tryCands_sound (sumLen mr) hSIH (getv mr bn.1).data mr bn.1
                (chooseBox_keylen mr bn hcb).1 (chooseBox_keylen mr bn hcb).2
                hcsub Nat.le.refl r h
              refine ⟨Pws_trans hp hpws_mr, fun hk hc => ?_⟩
              apply hv
              · rw [Pws_keys hpws_mr, hk]
              · exact charsOK_of_pws mr m hpws_mr hc

theorem grid_values_keys (g : String) (hg : g.length = 81) :
    (grid_values g).map Prod.fst = boxes := by
  unfold grid_values
  rw [List.map_map]
  have hlen : boxes.length ≤ g.data.length := by
    have : g.data.length = 81 := hg
    rw [this, boxes_length]
  exact List.map_fst_zip boxes g.data hlen

theorem getv_forall (m : CMap) (P : String → Prop) (hP : ∀ p ∈ m, P p.2)
    (hnil : P "") (b : String) : P (getv m b) := by
  induction m with
  | nil => exact hnil
  | cons p rest ih =>
    obtain ⟨k, v⟩ := p
    rw [getv_cons]
    by_cases hk : k = b
    · rw [if_pos hk]
      exact hP (k, v) (List.mem_cons_self _ _)
    · rw [if_neg hk]
      exact ih (fun q hq => hP q (List.mem_cons.mpr (Or.inr hq)))

theorem grid_values_charsOK (g : String) : charsOK (grid_values g) := by
  intro b
  apply getv_forall (grid_values g) (fun s => s.data ⊆ ("123456789" : String).data)
  · intro p hp
    unfold grid_values at hp
    obtain ⟨q, hq, rfl⟩ := List.mem_map.mp hp
    by_cases hd : q.2 ∈ ("123456789" : String).data
    · rw [if_pos hd]
      intro x hx
      rcases List.mem_singleton.mp hx with rfl
      exact hd
    · rw [if_neg hd]
      exact fun x hx => hx
  · exact fun x hx => absurd hx (List.not_mem_nil x)

theorem getv_of_mem_nodup (m : CMap) (k v : String)
    (hnd : (m.map Prod.fst).Nodup) (hm : (k, v) ∈ m) : getv m k = v := by
  induction m with
  | nil => cases hm
  | cons p rest ih =>
    obtain ⟨k1, v1⟩ := p
    rw [List.map_cons, List.nodup_cons] at hnd
    rw [getv_cons]
    rcases List.mem_cons.mp hm with heq | hmem
    · obtain ⟨h1, h2⟩ := Prod.mk.injEq .. ▸ heq
      rw [if_pos h1.symm, h2]
    · by_cases hk : k1 = k
      · exfalso
        apply hnd.1
        rw [hk]
        exact List.mem_map.mpr ⟨(k, v), hmem, rfl⟩
      · rw [if_neg hk]
        exact ih hnd.2 hmem

theorem grid_values_clue (g : String) (hg : g.length = 81) (p : String × Char)
    (hp : p ∈ boxes.zip g.data) (hd : p.2 ∈ ("123456789" : String).data) :
    getv (grid_values g) p.1 = String.mk [p.2] := by
  apply getv_of_mem_nodup
  · rw [grid_values_keys g hg]
    exact boxes_nodup
  · unfold grid_values
    apply List.mem_map.mpr
    exact ⟨p, hp, by rw [if_pos hd]⟩

/-- The solved map extends the clues of the input grid: every cell that held a
digit in the grid string still holds exactly that digit. -/
def Extends (m : CMap) (g : String) : Prop :=
  ∀ p ∈ boxes.zip g.data, p.2 ∈ ("123456789" : String).data →
    getv m p.1 = String.mk [p.2]

theorem solve_extends (g : String) (hg : g.length = 81) (r : CMap)
    (h : solve g = some r) : Extends r g := by
  intro p hp hd
  obtain ⟨hpws, hvalid⟩ := search_sound (sumLen (grid_values g)) (grid_values g) r
    Nat.le.refl h
  have hsub : (getv r p.1).data.Sublist (getv (grid_values g) p.1).data :=
    Pws_getv hpws p.1
  rw [grid_values_clue g hg p hp hd] at hsub
  have hvg := hvalid (grid_values_keys g hg) (grid_values_charsOK g)
  have hp1 : p.1 ∈ boxes := by
    obtain ⟨b, c⟩ := p
    exact (List.mem_zip hp).1
  have hlen : (getv r p.1).length = 1 := hvg.1 p.1 hp1
  apply string_eq_singleton_of_data
  exact hsub.eq_of_length hlen

/-- C2: Every candidate map returned as a success by `search` (and hence by
`solve`) has every box resolved to exactly one digit, and every unit — each of
the 9 rows, 9 columns, 9 blocks, and the 2 main diagonals — contains each
digit 1–9 exactly once. -/
theorem claim_c2_solved_outputs_valid :
    (∀ m r : CMap, m.map Prod.fst = boxes → charsOK m → search m = some r →
      validSolvedGrid r) ∧
    (∀ (g : String) (r : CMap), g.length = 81 → solve g = some r →
      validSolvedGrid r) := by
  constructor
  · intro m r hk hc h
    exact (search_sound (sumLen m) m r Nat.le.refl h).2 hk hc
  · intro g r hg h
    exact (search_sound (sumLen (grid_values g)) (grid_values g) r Nat.le.refl h).2
      (grid_values_keys g hg) (grid_values_charsOK g)

/-- C3: a syntactically well-formed 81-character grid whose clues admit no
valid solved grid makes `solve` return the failure value (`None`/`False`,
modelled as `none`), not a partially filled map. -/
theorem claim_c3_contradictory_fails (g : String) (hg : g.length = 81)
    (hns : ¬ ∃ r : CMap, r.map Prod.fst = boxes ∧ validSolvedGrid r ∧ Extends r g) :
    solve g = none := by
  cases hs : solve g with
  | none => rfl
  | some r =>
    exfalso
    apply hns
    obtain ⟨hpws, hvalid⟩ :=
      search_sound (sumLen (grid_values g)) (grid_values g) r Nat.le.refl hs
    refine ⟨r, ?_, hvalid (grid_values_keys g hg) (grid_values_charsOK g),
      solve_extends g hg r hs⟩
    rw [Pws_keys hpws, grid_values_keys g hg]

/-- A fully solved grid that also satisfies both diagonal constraints. -/
def gStar : String :=
  "249368715356971824781542639512783496467195283893426571928614357675839142134257968"

set_option maxRecDepth 10000 in
theorem gStar_length : gStar.length = 81 := by decide

set_option maxRecDepth 20000 in
theorem gStar_allSolved : allSolved (grid_values gStar) := by
  show ∀ b ∈ boxes, (getv (grid_values gStar) b).length = 1
  decide

set_option maxRecDepth 40000 in
theorem gStar_dist : ∀ b ∈ boxes, ∀ p ∈ box_peers b,
    getv (grid_values gStar) p ≠ getv (grid_values gStar) b := by decide

theorem gStar_keys : (grid_values gStar).map Prod.fst = boxes :=
  grid_values_keys gStar gStar_length

theorem gStar_eliminate : eliminate (grid_values gStar) = some (grid_values gStar) :=
  eliminate_solved_ok (grid_values gStar) gStar_keys gStar_allSolved gStar_dist

theorem gStar_only_choice : only_choice (grid_values gStar) = grid_values gStar :=
  only_choice_solved_id (grid_values gStar) gStar_allSolved

theorem gStar_ne_nil : grid_values gStar ≠ [] := by
  intro hh
  have := congrArg List.length (congrArg (List.map Prod.fst) hh)
  rw [gStar_keys, boxes_length] at this
  cases this

theorem gStar_reduce : reduce_puzzle (grid_values gStar) = some (grid_values gStar) := by
  rw [reduce_puzzle_eq, reduceStep_some _ _ _ gStar_eliminate, if_neg gStar_ne_nil,
    gStar_only_choice, if_neg gStar_ne_nil, if_pos rfl]

set_option maxRecDepth 20000 in
theorem gStar_solvedB : boxes.all (fun s => (getv (grid_values gStar) s).length == 1) = true := by
  decide

theorem gStar_solve : solve gStar = some (grid_values gStar) := by
  show search (grid_values gStar) = some (grid_values gStar)
  rw [search.eq_def, gStar_reduce]
  split
  · rename_i heq; cases heq
  · rename_i mr heq
    injection heq with heq2
    subst heq2
    rw [if_neg gStar_ne_nil, if_pos gStar_solvedB]

/-- Witness: C2 at the concrete solved diagonal grid `gStar`. -/
theorem claim_c2_witness :
    gStar.length = 81 ∧ solve gStar = some (grid_values gStar) ∧
      validSolvedGrid (grid_values gStar) :=
  ⟨gStar_length, gStar_solve,
    claim_c2_solved_outputs_valid.2 gStar (grid_values gStar) gStar_length gStar_solve⟩

/-- A well-formed but contradictory grid: two `2`s in row A. -/
def gBad : String :=
  "22..............................................................................."

set_option maxRecDepth 10000 in
theorem gBad_length : gBad.length = 81 := by decide

theorem two_le_countP (l : List String) (p : String → Bool) (a b : String)
    (hab : a ≠ b) (ha : a ∈ l) (hb : b ∈ l) (hpa : p a = true) (hpb : p b = true) :
    2 ≤ l.countP p := by
  induction l with
  | nil => cases ha
  | cons x xs ih =>
    rw [List.countP_cons]
    by_cases hxa : a = x
    · have hbx : b ∈ xs := by
        rcases List.mem_cons.mp hb with rfl | hh
        · exact absurd hxa.symm (fun hh2 => hab hh2.symm)
        · exact hh
      have hpos : 0 < xs.countP p := List.countP_pos_iff.mpr ⟨b, hbx, hpb⟩
      rw [← hxa, hpa, if_pos rfl]
      omega
    · by_cases hxb : b = x
      · have hax : a ∈ xs := by
          rcases List.mem_cons.mp ha with rfl | hh
          · exact absurd hxb.symm (fun hh2 => hab hh2)
          · exact hh
        have hpos : 0 < xs.countP p := List.countP_pos_iff.mpr ⟨a, hax, hpa⟩
        rw [← hxb, hpb, if_pos rfl]
        omega
      · have hax : a ∈ xs := by
          rcases List.mem_cons.mp ha with rfl | hh
          · exact absurd rfl hxa
          · exact hh
        have hbx : b ∈ xs := by
          rcases List.mem_cons.mp hb with rfl | hh
          · exact absurd rfl hxb
          · exact hh
        have := ih hax hbx
        omega

set_option maxRecDepth 10000 in
theorem gBad_nosol :
    ¬ ∃ r : CMap, r.map Prod.fst = boxes ∧ validSolvedGrid r ∧ Extends r gBad := by
  rintro ⟨r, hk, ⟨hall, hunits⟩, hext⟩
  have h1 : getv r "A1" = String.mk ['2'] := hext ("A1", '2') (by decide) (by decide)
  have h2 : getv r "A2" = String.mk ['2'] := hext ("A2", '2') (by decide) (by decide)
  have hu : (cross (String.mk ['A']) cols) ∈ units := by decide
  have hcount := hunits (cross (String.mk ['A']) cols) hu '2' (by decide)
  have hge : 2 ≤ (cross (String.mk ['A']) cols).countP
      (fun b => getv r b == String.mk ['2']) := by
    apply two_le_countP _ _ "A1" "A2" (by decide) (by decide) (by decide)
    · rw [h1]
      exact beq_self_eq_true _
    · rw [h2]
      exact beq_self_eq_true _
  omega

/-- Witness: C3 at the concrete contradictory grid `gBad`. -/
theorem claim_c3_witness :
    gBad.length = 81 ∧
      (¬ ∃ r : CMap, r.map Prod.fst = boxes ∧ validSolvedGrid r ∧ Extends r gBad) ∧
      solve gBad = none :=
  ⟨gBad_length, gBad_nosol, claim_c3_contradictory_fails gBad gBad_length gBad_nosol⟩

/-- C5: elimination is a contracting map — on success no box's candidate
string grows. -/
theorem claim_c5_eliminate_contracting (m m' : CMap) (h : eliminate m = some m')
    (b : String) : (getv m' b).length ≤ (getv m b).length :=
  (Pws_getv (eliminate_pws m m' h) b).length_le

/-- The empty grid: every box keeps the full candidate set `"123456789"`. -/
def dots81 : String :=
  "................................................................................."

theorem elimBox_not_single (m : CMap) (b : String) (h : (getv m b).length ≠ 1) :
    elimBox m b = some m := by
  unfold elimBox
  cases hd : (getv m b).data with
  | nil => rfl
  | cons c cs =>
    cases cs with
    | nil =>
      exfalso
      apply h
      show (getv m b).data.length = 1
      rw [hd]
      rfl
    | cons c2 cs2 => rfl

theorem eliminate_unsolved_id (m : CMap)
    (h : ∀ k ∈ m.map Prod.fst, (getv m k).length ≠ 1) : eliminate m = some m := by
  unfold eliminate
  suffices hgen : ∀ L : List String, (∀ k ∈ L, (getv m k).length ≠ 1) →
      L.foldlM elimBox m = some m by
    exact hgen _ h
  intro L hL
  induction L with
  | nil => rfl
  | cons b L' ih =>
    rw [List.foldlM_cons, elimBox_not_single m b (hL b (List.mem_cons_self b L'))]
    simp only [Option.bind_eq_bind, Option.some_bind]
    exact ih (fun x hx => hL x (List.mem_cons.mpr (Or.inr hx)))

set_option maxRecDepth 20000 in
theorem dots_unsolved : ∀ k ∈ (grid_values dots81).map Prod.fst,
    (getv (grid_values dots81) k).length ≠ 1 := by decide

theorem dots_eliminate : eliminate (grid_values dots81) = some (grid_values dots81) :=
  eliminate_unsolved_id _ dots_unsolved

/-- Witness: C5 at the all-candidates map of the empty grid. -/
theorem claim_c5_witness :
    eliminate (grid_values dots81) = some (grid_values dots81) ∧
      (getv (grid_values dots81) "A1").length ≤ (getv (grid_values dots81) "A1").length :=
  ⟨dots_eliminate,
    claim_c5_eliminate_contracting (grid_values dots81) (grid_values dots81)
      dots_eliminate "A1"⟩

theorem ne_nil_of_keys (m : CMap) (hk : m.map Prod.fst = boxes) : m ≠ [] := by
  intro hh
  rw [hh] at hk
  have := congrArg List.length hk
  rw [boxes_length] at this
  cases this

theorem length_eq_81_of_keys (m : CMap) (hk : m.map Prod.fst = boxes) : m.length = 81 := by
  have := congrArg List.length hk
  rw [List.length_map, boxes_length] at this
  exact this

/-- C7: on a candidate map over the 81 boxes, the solved count never decreases
across an elimination + only-choice pass, is bounded by 81, and the loop exits
returning the pass's result as soon as the count did not increase. -/
theorem claim_c7_reduce_terminates (m : CMap) (hk : m.map Prod.fst = boxes) :
    solvedCount m ≤ 81 ∧
      (∀ m1, eliminate m = some m1 →
        solvedCount m ≤ solvedCount (only_choice m1) ∧
          solvedCount (only_choice m1) ≤ 81) ∧
      (∀ m1, eliminate m = some m1 → solvedCount (only_choice m1) = solvedCount m →
        reduce_puzzle m = some (only_choice m1)) := by
  refine ⟨?_, ?_, ?_⟩
  · have := solvedCount_le_length m
    rw [length_eq_81_of_keys m hk] at this
    exact this
  · intro m1 he
    have hk1 : m1.map Prod.fst = boxes := by
      rw [Pws_keys (eliminate_pws m m1 he), hk]
    have hk2 : (only_choice m1).map Prod.fst = boxes := by
      rw [Pws_keys (only_choice_pws m1), hk1]
    refine ⟨(eliminate_solved_le m m1 he).trans (only_choice_solved_le m1), ?_⟩
    have := solvedCount_le_length (only_choice m1)
    rw [length_eq_81_of_keys _ hk2] at this
    exact this
  · intro m1 he hcnt
    have hk1 : m1.map Prod.fst = boxes := by
      rw [Pws_keys (eliminate_pws m m1 he), hk]
    have hk2 : (only_choice m1).map Prod.fst = boxes := by
      rw [Pws_keys (only_choice_pws m1), hk1]
    rw [reduce_puzzle_eq, reduceStep_some m _ m1 he, if_neg (ne_nil_of_keys m1 hk1),
      if_neg (ne_nil_of_keys _ hk2), if_pos hcnt]

theorem ocStep_not_single (u : List String) (m : CMap) (d : Char)
    (h : (u.filter (fun b => decide (d ∈ (getv m b).data))).length ≠ 1) :
    ocStep u m d = m := by
  unfold ocStep
  cases hd : u.filter (fun b => decide (d ∈ (getv m b).data)) with
  | nil => rfl
  | cons b bs =>
    cases bs with
    | nil =>
      exfalso
      apply h
      rw [hd]
      rfl
    | cons b2 bs2 => rfl

theorem only_choice_id_of_filters (m : CMap)
    (h : ∀ u ∈ units, ∀ d ∈ ("123456789" : String).data,
      (u.filter (fun b => decide (d ∈ (getv m b).data))).length ≠ 1) :
    only_choice m = m := by
  unfold only_choice
  apply foldl_id
  intro u hu
  apply foldl_id
  intro d hd
  exact ocStep_not_single u m d (h u hu d hd)

set_option maxRecDepth 20000 in
theorem dots_filters : ∀ u ∈ units, ∀ d ∈ ("123456789" : String).data,
    (u.filter (fun b => decide (d ∈ (getv (grid_values dots81) b).data))).length ≠ 1 := by
  decide

theorem dots_only_choice : only_choice (grid_values dots81) = grid_values dots81 :=
  only_choice_id_of_filters _ dots_filters

theorem dots_keys : (grid_values dots81).map Prod.fst = boxes :=
  grid_values_keys dots81 (by decide)

/-- Witness: C7 at the all-candidates map of the empty grid. -/
theorem claim_c7_witness :
    (grid_values dots81).map Prod.fst = boxes ∧
      solvedCount (grid_values dots81) ≤ 81 ∧
      eliminate (grid_values dots81) = some (grid_values dots81) ∧
      reduce_puzzle (grid_values dots81) = some (only_choice (grid_values dots81)) := by
  refine ⟨dots_keys, (claim_c7_reduce_terminates _ dots_keys).1, dots_eliminate, ?_⟩
  apply (claim_c7_reduce_terminates _ dots_keys).2.2 _ dots_eliminate
  rw [dots_only_choice]

/-- The only-choice write relation: each box is either untouched or was forced
to a single digit that was already among its candidates. -/
def OcW (m' m : CMap) : Prop :=
  ∀ b : String, getv m' b = getv m b ∨
    ((getv m' b).length = 1 ∧ (getv m' b).data ⊆ (getv m b).data)

theorem OcW_refl (m : CMap) : OcW m m := fun b => Or.inl rfl

theorem OcW_trans {m2 m1 m0 : CMap} (h2 : OcW m2 m1) (h1 : OcW m1 m0) : OcW m2 m0 := by
  intro b
  rcases h2 b with he | ⟨hl, hs⟩
  · rw [he]
    exact h1 b
  · rcases h1 b with he1 | ⟨hl1, hs1⟩
    · rw [he1] at hs
      exact Or.inr ⟨hl, hs⟩
    · exact Or.inr ⟨hl, hs.trans hs1⟩

theorem ocStep_ocw (u : List String) (m : CMap) (d : Char) : OcW (ocStep u m d) m := by
  rcases ocStep_eq_or u m d with h | ⟨b0, hb0, hd0, h⟩
  · rw [h]; exact OcW_refl m
  · rw [h]
    intro b
    by_cases hbb : b = b0
    · subst hbb
      rcases getv_setv_or m b (String.mk [d]) b with ho | ho
      · right
        rw [ho]
        exact ⟨rfl, fun x hx => (List.mem_singleton.mp hx) ▸ hd0⟩
      · left; rw [ho]
    · left
      exact getv_setv_ne m b0 (String.mk [d]) b hbb

theorem ocFoldDigits_ocw (u : List String) (ds : List Char) (m : CMap) :
    OcW (ds.foldl (ocStep u) m) m := by
  induction ds generalizing m with
  | nil => exact OcW_refl m
  | cons d ds' ih =>
    rw [List.foldl_cons]
    exact OcW_trans (ih _) (ocStep_ocw u m d)

theorem only_choice_ocw (m : CMap) : OcW (only_choice m) m := by
  unfold only_choice
  generalize units = us
  induction us generalizing m with
  | nil => exact OcW_refl m
  | cons u us' ih =>
    rw [List.foldl_cons]
    exact OcW_trans (ih _) (ocFoldDigits_ocw u _ m)

/-- C10: `only_choice` never signals failure — it always returns the map (its
key structure, and hence the dict's truthiness used by `reduce_puzzle`'s
`if not only_choice(values)`, is unchanged), and every box it writes was
forced to a digit already among that box's candidates. -/
theorem claim_c10_only_choice_total (m : CMap) (hne : ∀ b ∈ boxes, getv m b ≠ "") :
    (only_choice m).map Prod.fst = m.map Prod.fst ∧
      (m ≠ [] → only_choice m ≠ []) ∧
      (∀ b : String, getv (only_choice m) b ≠ getv m b →
        (getv (only_choice m) b).length = 1 ∧
          (getv (only_choice m) b).data ⊆ (getv m b).data) := by
  refine ⟨Pws_keys (only_choice_pws m), ?_, ?_⟩
  · intro hm hoc
    apply hm
    have hkeys := Pws_keys (only_choice_pws m)
    rw [hoc] at hkeys
    exact List.map_eq_nil_iff.mp hkeys.symm
  · intro b hb
    rcases only_choice_ocw m b with he | hgood
    · exact absurd he hb
    · exact hgood

set_option maxRecDepth 20000 in
/-- Witness: C10 at the all-candidates map of the empty grid. -/
theorem claim_c10_witness :
    (∀ b ∈ boxes, getv (grid_values dots81) b ≠ "") ∧
      (only_choice (grid_values dots81)).map Prod.fst =
        (grid_values dots81).map Prod.fst ∧
      (grid_values dots81 ≠ [] → only_choice (grid_values dots81) ≠ []) := by
  have hne : ∀ b ∈ boxes, getv (grid_values dots81) b ≠ "" := by decide
  exact ⟨hne, (claim_c10_only_choice_total _ hne).1, (claim_c10_only_choice_total _ hne).2.1⟩

/-- The history-recording dict of `solution.py`: the candidate map plus the
list of full-map snapshots taken on each recorded assignment. -/
structure VisualizibleDict where
  data : CMap
  assignments : List CMap

/-- `VisualizibleDict.__setitem__`: a write of the current value returns
immediately; otherwise the box is overwritten and, when the new value is a
single character, a snapshot of the updated map is appended to the history. -/
def VisualizibleDict.setItem (d : VisualizibleDict) (box value : String) :
    VisualizibleDict :=
  if getv d.data box = value then d
  else
    { data := setv d.data box value,
      assignments :=
        if value.length = 1 then d.assignments ++ [setv d.data box value]
        else d.assignments }

/-- C9: writing the current value is a complete no-op (no history entry, no
state change anywhere); a changing write overwrites exactly the written box
and appends a snapshot of the updated map iff the new value has length 1. -/
theorem claim_c9_setitem_semantics (d : VisualizibleDict) (box value : String) :
    (getv d.data box = value → VisualizibleDict.setItem d box value = d) ∧
    (getv d.data box ≠ value →
      (VisualizibleDict.setItem d box value).data = setv d.data box value ∧
      (∀ x, x ≠ box →
        getv (VisualizibleDict.setItem d box value).data x = getv d.data x) ∧
      (box ∈ d.data.map Prod.fst →
        getv (VisualizibleDict.setItem d box value).data box = value) ∧
      ((VisualizibleDict.setItem d box value).assignments =
          d.assignments ++ [setv d.data box value] ↔ value.length = 1)) := by
  constructor
  · intro h
    unfold VisualizibleDict.setItem
    rw [if_pos h]
  · intro h
    unfold VisualizibleDict.setItem
    rw [if_neg h]
    refine ⟨rfl, ?_, ?_, ?_⟩
    · intro x hx
      exact getv_setv_ne d.data box value x hx
    · intro hbox
      exact getv_setv_mem d.data box value hbox
    · constructor
      · intro happ
        by_cases hlen : value.length = 1
        · exact hlen
        · exfalso
          rw [if_neg hlen] at happ
          have := congrArg List.length happ
          simp only [List.length_append, List.length_singleton] at this
          omega
      · intro hlen
        rw [if_pos hlen]

/-- Witness: C9, no-op write on a one-entry dict. -/
theorem claim_c9_witness :
    getv (VisualizibleDict.mk [("A1", "12")] []).data "A1" = "12" ∧
      VisualizibleDict.setItem (VisualizibleDict.mk [("A1", "12")] []) "A1" "12" =
        VisualizibleDict.mk [("A1", "12")] [] :=
  ⟨rfl, (claim_c9_setitem_semantics (VisualizibleDict.mk [("A1", "12")] []) "A1" "12").1 rfl⟩

/-- C8 counterexample: box `A1` lies on a diagonal, yet belongs to 4 units,
not 5 (row A, column 1, top-left block, main diagonal). -/
theorem claim_c8_counterexample :
    (∃ u ∈ diagonal_units, "A1" ∈ u) ∧ (box_units "A1").length = 4 ∧
      (box_units "A1").length ≠ 5 := by
  refine ⟨⟨List.zipWith (fun r c => String.mk [r, c]) rows.data cols.data, ?_, ?_⟩, ?_, ?_⟩
  · decide
  · decide
  · decide
  · decide

set_option maxRecDepth 10000 in
/-- C8 amended: every box lies in exactly one row, one column and one block;
it lies on 0, 1 or 2 diagonals, and its unit list has `3 + d` entries where
`d` is the number of diagonals through it (4 for the sixteen non-centre
diagonal boxes, 5 only for the centre `E5`, 3 otherwise). -/
theorem claim_c8_amended : ∀ b ∈ boxes,
    (row_units.filter (fun u => decide (b ∈ u))).length = 1 ∧
    (column_units.filter (fun u => decide (b ∈ u))).length = 1 ∧
    (square_units.filter (fun u => decide (b ∈ u))).length = 1 ∧
    (diagonal_units.filter (fun u => decide (b ∈ u))).length ≤ 2 ∧
    (box_units b).length = 3 + (diagonal_units.filter (fun u => decide (b ∈ u))).length := by
  decide

/-- Witness: C8 amended at the centre box `E5` (both diagonals). -/
theorem claim_c8_witness :
    "E5" ∈ boxes ∧
      (row_units.filter (fun u => decide ("E5" ∈ u))).length = 1 ∧
      (column_units.filter (fun u => decide ("E5" ∈ u))).length = 1 ∧
      (square_units.filter (fun u => decide ("E5" ∈ u))).length = 1 ∧
      (diagonal_units.filter (fun u => decide ("E5" ∈ u))).length ≤ 2 ∧
      (box_units "E5").length =
        3 + (diagonal_units.filter (fun u => decide ("E5" ∈ u))).length :=
  ⟨by decide, claim_c8_amended "E5" (by decide)⟩

/-- `eliminate` without the empty-set check, for comparison: the emptied
candidate string is stored and processing continues.  (Not part of the source;
it makes "fails exactly when a removal would empty a peer" a statement about
maps rather than about the traversal.) -/
def elimPeerNC (c : Char) (m' : CMap) (p : String) : CMap :=
  setv m' p (removeChar (getv m' p) c)

def elimBoxNC (m : CMap) (b : String) : CMap :=
  match (getv m b).data with
  | [c] => (box_peers b).foldl (elimPeerNC c) m
  | _ => m

def eliminateNC (m : CMap) : CMap := (m.map Prod.fst).foldl elimBoxNC m

theorem elimPeerNC_pws (c : Char) (m : CMap) (p : String) : Pws (elimPeerNC c m p) m :=
  Pws_setv (removeChar_sublist _ _)

theorem elimFoldPeersNC_pws (c : Char) (P : List String) (m : CMap) :
    Pws (P.foldl (elimPeerNC c) m) m := by
  induction P generalizing m with
  | nil => exact Pws_refl m
  | cons p P' ih =>
    rw [List.foldl_cons]
    exact Pws_trans (ih _) (elimPeerNC_pws c m p)

theorem elimBoxNC_pws (m : CMap) (b : String) : Pws (elimBoxNC m b) m := by
  unfold elimBoxNC
  split
  · exact elimFoldPeersNC_pws _ _ m
  · exact Pws_refl m

theorem elimFoldBoxesNC_pws (L : List String) (m : CMap) :
    Pws (L.foldl elimBoxNC m) m := by
  induction L generalizing m with
  | nil => exact Pws_refl m
  | cons b L' ih =>
    rw [List.foldl_cons]
    exact Pws_trans (ih _) (elimBoxNC_pws m b)

theorem empty_persists (m' m : CMap) (hp : Pws m' m) (p : String)
    (h : getv m p = "") : getv m' p = "" := by
  have := Pws_getv hp p
  rw [h] at this
  cases hs : (getv m' p).data with
  | nil => exact String.ext hs
  | cons c cs =>
    rw [hs] at this
    cases this

theorem elimPeer_some_ncstep (c : Char) (m m1 : CMap) (p : String)
    (h : elimPeer c m p = some m1) : elimPeerNC c m p = m1 := by
  obtain ⟨-, hm1⟩ := elimPeer_some c m m1 p h
  rw [hm1]
  rfl

theorem elimFoldPeers_nc_eq (c : Char) (P : List String) :
    ∀ m m1, P.foldlM (elimPeer c) m = some m1 → P.foldl (elimPeerNC c) m = m1 := by
  induction P with
  | nil =>
    intro m m1 h
    simp only [List.foldlM_nil, Option.pure_def, Option.some.injEq] at h
    exact h
  | cons p P' ih =>
    intro m m1 h
    rw [List.foldlM_cons] at h
    cases hp : elimPeer c m p with
    | none => rw [hp] at h; cases h
    | some m2 =>
      rw [hp] at h
      simp only [Option.bind_eq_bind, Option.some_bind] at h
      rw [List.foldl_cons, elimPeer_some_ncstep c m m2 p hp]
      exact ih m2 m1 h

theorem elimBox_nc_eq (m : CMap) (b : String) (m1 : CMap)
    (h : elimBox m b = some m1) : elimBoxNC m b = m1 := by
  unfold elimBox at h
  unfold elimBoxNC
  revert h
  cases hd : (getv m b).data with
  | nil =>
    intro h
    injection h
  | cons c cs =>
    cases cs with
    | nil =>
      intro h
      exact elimFoldPeers_nc_eq c _ m m1 h
    | cons c2 cs2 =>
      intro h
      injection h

theorem elimFoldBoxes_nc_eq (L : List String) :
    ∀ m m1, L.foldlM elimBox m = some m1 → L.foldl elimBoxNC m = m1 := by
  induction L with
  | nil =>
    intro m m1 h
    simp only [List.foldlM_nil, Option.pure_def, Option.some.injEq] at h
    exact h
  | cons b L' ih =>
    intro m m1 h
    rw [List.foldlM_cons] at h
    cases hb : elimBox m b with
    | none => rw [hb] at h; cases h
    | some m2 =>
      rw [hb] at h
      simp only [Option.bind_eq_bind, Option.some_bind] at h
      rw [List.foldl_cons, elimBox_nc_eq m b m2 hb]
      exact ih m2 m1 h

theorem eliminate_nc_eq (m m1 : CMap) (h : eliminate m = some m1) :
    eliminateNC m = m1 :=
  elimFoldBoxes_nc_eq _ m m1 h

theorem elimPeerNC_empty (c : Char) (m : CMap) (p : String)
    (h : removeChar (getv m p) c = "") : getv (elimPeerNC c m p) p = "" := by
  unfold elimPeerNC
  by_cases hmem : p ∈ m.map Prod.fst
  · rw [getv_setv_mem m p _ hmem, h]
  · rw [setv_not_mem m p _ hmem]
    have hval : getv m p = "" := by
      by_contra hne
      exact hmem (mem_of_getv_ne m p hne)
    exact hval

theorem elimFoldPeers_nc_fail (c : Char) (P : List String) :
    ∀ m, P.foldlM (elimPeer c) m = none →
    ∃ p ∈ P, getv (P.foldl (elimPeerNC c) m) p = "" := by
  induction P with
  | nil => intro m h; cases h
  | cons p P' ih =>
    intro m h
    rw [List.foldlM_cons] at h
    rw [List.foldl_cons]
    cases hp : elimPeer c m p with
    | some m2 =>
      rw [hp] at h
      simp only [Option.bind_eq_bind, Option.some_bind] at h
      obtain ⟨q, hq, hqe⟩ := ih m2 h
      rw [elimPeer_some_ncstep c m m2 p hp]
      exact ⟨q, List.mem_cons.mpr (Or.inr hq), hqe⟩
    | none =>
      rw [hp] at h
      have hrc : removeChar (getv m p) c = "" := by
        by_contra hne
        rw [elimPeer_eq, if_neg hne] at hp
        cases hp
      refine ⟨p, List.mem_cons_self p P', ?_⟩
      exact empty_persists _ _ (elimFoldPeersNC_pws c P' (elimPeerNC c m p)) p
        (elimPeerNC_empty c m p hrc)

theorem elimBox_nc_fail (m : CMap) (b : String) (hbx : b ∈ boxes)
    (h : elimBox m b = none) : ∃ p ∈ boxes, getv (elimBoxNC m b) p = "" := by
  unfold elimBox at h
  unfold elimBoxNC
  revert h
  cases hd : (getv m b).data with
  | nil => intro h; cases h
  | cons c cs =>
    cases cs with
    | nil =>
      intro h
      obtain ⟨p, hp, hpe⟩ := elimFoldPeers_nc_fail c _ m h
      exact ⟨p, peers_sub_boxes b hbx p hp, hpe⟩
    | cons c2 cs2 => intro h; cases h

theorem elimFoldBoxes_nc_fail (L : List String) :
    ∀ m, (∀ x ∈ L, x ∈ boxes) → L.foldlM elimBox m = none →
    ∃ p ∈ boxes, getv (L.foldl elimBoxNC m) p = "" := by
  induction L with
  | nil => intro m _ h; cases h
  | cons b L' ih =>
    intro m hsub h
    rw [List.foldlM_cons] at h
    rw [List.foldl_cons]
    cases hb : elimBox m b with
    | some m2 =>
      rw [hb] at h
      simp only [Option.bind_eq_bind, Option.some_bind] at h
      rw [elimBox_nc_eq m b m2 hb]
      exact ih m2 (fun x hx => hsub x (List.mem_cons.mpr (Or.inr hx))) h
    | none =>
      obtain ⟨p, hp, hpe⟩ := elimBox_nc_fail m b (hsub b (List.mem_cons_self b L')) hb
      refine ⟨p, hp, ?_⟩
      exact empty_persists _ _ (elimFoldBoxesNC_pws L' (elimBoxNC m b)) p hpe

/-- C4: on a candidate map (all 81 boxes present, no empty candidate set),
`eliminate` fails exactly when some removal would leave a peer with zero
candidates — i.e. exactly when the check-free variant `eliminateNC` produces
an empty box — and any map it returns has no empty candidate set. -/
theorem claim_c4_eliminate_empty_check (m : CMap) (hk : m.map Prod.fst = boxes)
    (hne : ∀ b ∈ boxes, getv m b ≠ "") :
    (eliminate m = none ↔ ∃ b ∈ boxes, getv (eliminateNC m) b = "") ∧
    (∀ m', eliminate m = some m' → ∀ b ∈ boxes, getv m' b ≠ "") := by
  constructor
  · constructor
    · intro hfail
      unfold eliminate at hfail
      unfold eliminateNC
      rw [hk] at hfail ⊢
      exact elimFoldBoxes_nc_fail boxes m (fun x hx => hx) hfail
    · intro ⟨b, hb, hempty⟩
      cases hsome : eliminate m with
      | none => rfl
      | some m' =>
        exfalso
        rw [eliminate_nc_eq m m' hsome] at hempty
        exact hne b hb (eliminate_noempty m m' hsome b hempty)
  · intro m' h b hb hempty
    exact hne b hb (eliminate_noempty m m' h b hempty)

set_option maxRecDepth 20000 in
/-- Witness: C4 at the all-candidates map of the empty grid. -/
theorem claim_c4_witness :
    (grid_values dots81).map Prod.fst = boxes ∧
      (∀ b ∈ boxes, getv (grid_values dots81) b ≠ "") ∧
      (eliminate (grid_values dots81) = none ↔
        ∃ b ∈ boxes, getv (eliminateNC (grid_values dots81)) b = "") := by
  have hne : ∀ b ∈ boxes, getv (grid_values dots81) b ≠ "" := by decide
  exact ⟨dots_keys, hne, (claim_c4_eliminate_empty_check _ dots_keys hne).1⟩

/-- A reduce-stable unsolved map: `A1` has candidates `"1234"`, `B1` has
`"123"`, every other box has all nine candidates. -/
def M1 : CMap := setv (setv (grid_values dots81) "A1" "1234") "B1" "123"

theorem M1_keys : M1.map Prod.fst = boxes := by
  show ((setv (setv (grid_values dots81) "A1" "1234") "B1" "123").map Prod.fst) = boxes
  rw [setv_map_fst, setv_map_fst, dots_keys]

set_option maxRecDepth 20000 in
theorem M1_unsolved : ∀ k ∈ M1.map Prod.fst, (getv M1 k).length ≠ 1 := by decide

set_option maxRecDepth 20000 in
theorem M1_filters : ∀ u ∈ units, ∀ d ∈ ("123456789" : String).data,
    (u.filter (fun b => decide (d ∈ (getv M1 b).data))).length ≠ 1 := by decide

theorem M1_reduce : reduce_puzzle M1 = some M1 := by
  have honly : only_choice M1 = M1 := only_choice_id_of_filters M1 M1_filters
  have helim : eliminate M1 = some M1 := eliminate_unsolved_id M1 M1_unsolved
  rw [reduce_puzzle_eq, reduceStep_some M1 _ M1 helim, if_neg (ne_nil_of_keys M1 M1_keys),
    honly, if_neg (ne_nil_of_keys M1 M1_keys), if_pos rfl]

set_option maxRecDepth 100000 in
theorem M1_chooseBox : chooseBox M1 = some ("A1", 4) := by decide

/-- C1 (code bug): the map `M1` is reduce-stable, not contradictory and not
solved, yet the branching box picked by
`min((box, len(values[box])) for box in boxes if len(values[box]) > 1)` is
`A1` with 4 candidates although the unsolved box `B1` has only 3.  Python
compares the tuples by box name first, so the selection ignores the candidate
count, contradicting the spec and the source's own comment
("find one of the unsolved boxes with minimal number of possible values"). -/
theorem claim_c1_chooser_ignores_count :
    reduce_puzzle M1 = some M1 ∧
      (¬ ∀ b ∈ boxes, (getv M1 b).length = 1) ∧
      chooseBox M1 = some ("A1", 4) ∧
      1 < (getv M1 "B1").length ∧
      (getv M1 "B1").length < (getv M1 "A1").length := by
  refine ⟨M1_reduce, ?_, M1_chooseBox, ?_, ?_⟩
  · intro hall
    have := hall "A1" (by decide)
    have h4 : (getv M1 "A1").length = 4 := by decide
    omega
  · have h3 : (getv M1 "B1").length = 3 := by decide
    omega
  · have h3 : (getv M1 "B1").length = 3 := by decide
    have h4 : (getv M1 "A1").length = 4 := by decide
    omega

/-- An 81-box candidate map exhibiting non-idempotence of `naked_twins`: every
box of `grid_values dots81` holds `"123456789"` except `A1 = "1234"`,
`A2 = "12"`, `A3 = "1234"`, `A4 = "345"`, `A5 = "12"`. -/
def M6 : CMap :=
  setv (setv (setv (setv (setv (grid_values dots81)
    "A1" "1234") "A2" "12") "A3" "1234") "A4" "345") "A5" "12"

/-- `M6` after the first pass has processed row A: the `A2, A5 = "12"` twins
fired, removing `1` and `2` from the other row-A boxes and creating the new
twin pair `A1, A3 = "34"` behind the generator's scan position, so `A4` keeps
`"345"` for the rest of the pass. -/
def M6row : CMap :=
  setv (setv (setv (setv (setv (setv M6
    "A1" "34") "A3" "34") "A6" "3456789") "A7" "3456789") "A8" "3456789") "A9" "3456789"

/-- `M6` after one full `naked_twins` pass: beyond row A, only the first block
unit changes anything — its scan reaches the pair `(A1, A3)` and removes `3`
and `4` from the block's `B` and `C` boxes. -/
def M6p1 : CMap :=
  setv (setv (setv (setv (setv (setv M6row
    "B1" "1256789") "B2" "1256789") "B3" "1256789") "C1" "1256789") "C2" "1256789") "C3" "1256789"

/-- `M6` after two full `naked_twins` passes: the second pass's row-A scan now
sees the `A1, A3 = "34"` twins and removes `3` and `4` from `A4` (leaving
`"5"`) and from `A6`–`A9`. -/
def M6p2 : CMap :=
  setv (setv (setv (setv (setv M6p1
    "A4" "5") "A6" "56789") "A7" "56789") "A8" "56789") "A9" "56789"

/-- Row A, the first unit in iteration order. -/
def unitA : List String := cross (String.mk ['A']) cols

/-- The first block unit (boxes `A1`–`C3`), position 18 in unit iteration
order (after the 9 rows and the 9 columns). -/
def sq1 : List String := cross (String.mk ['A', 'B', 'C']) (String.mk ['1', '2', '3'])

set_option maxRecDepth 10000 in
theorem units_head : units = unitA :: units.tail := by decide

set_option maxRecDepth 10000 in
theorem units_decomp :
    units = unitA :: ((units.tail).take 17 ++ sq1 :: (units.tail).drop 18) := by decide

theorem ntUnit_id (m : CMap) (u : List String)
    (h : ∀ p ∈ ntPairs u, ntPair u m p = m) : ntUnit m u = m :=
  foldl_id (ntPair u) (ntPairs u) m h

set_option maxRecDepth 10000 in
theorem ntPairsA_split13 :
    ntPairs unitA =
      (ntPairs unitA).take 13 ++ ("A2", "A5") :: (ntPairs unitA).drop 14 := by decide

set_option maxRecDepth 10000 in
theorem ntPairsA_split2 :
    ntPairs unitA =
      (ntPairs unitA).take 2 ++ ("A1", "A3") :: (ntPairs unitA).drop 3 := by decide

set_option maxRecDepth 10000 in
theorem ntPairsSq_split2 :
    ntPairs sq1 =
      (ntPairs sq1).take 2 ++ ("A1", "A3") :: (ntPairs sq1).drop 3 := by decide

set_option maxRecDepth 100000 in
theorem ntp1_rowA_pre : ∀ p ∈ (ntPairs unitA).take 13, ntPair unitA M6 p = M6 := by decide

set_option maxRecDepth 100000 in
theorem ntp1_rowA_fire : ntPair unitA M6 ("A2", "A5") = M6row := by decide

set_option maxRecDepth 100000 in
theorem ntp1_rowA_post :
    ∀ p ∈ (ntPairs unitA).drop 14, ntPair unitA M6row p = M6row := by decide

set_option maxRecDepth 100000 in
theorem ntp1_mid_id :
    ∀ u ∈ (units.tail).take 17, ∀ p ∈ ntPairs u, ntPair u M6row p = M6row := by decide

set_option maxRecDepth 100000 in
theorem ntp1_sq1_pre : ∀ p ∈ (ntPairs sq1).take 2, ntPair sq1 M6row p = M6row := by decide

set_option maxRecDepth 100000 in
theorem ntp1_sq1_fire : ntPair sq1 M6row ("A1", "A3") = M6p1 := by decide

set_option maxRecDepth 100000 in
theorem ntp1_sq1_post :
    ∀ p ∈ (ntPairs sq1).drop 3, ntPair sq1 M6p1 p = M6p1 := by decide

set_option maxRecDepth 100000 in
theorem ntp1_late_id :
    ∀ u ∈ (units.tail).drop 18, ∀ p ∈ ntPairs u, ntPair u M6p1 p = M6p1 := by decide

set_option maxRecDepth 100000 in
theorem ntp2_rowA_pre : ∀ p ∈ (ntPairs unitA).take 2, ntPair unitA M6p1 p = M6p1 := by decide

set_option maxRecDepth 100000 in
theorem ntp2_rowA_fire : ntPair unitA M6p1 ("A1", "A3") = M6p2 := by decide

set_option maxRecDepth 100000 in
theorem ntp2_rowA_post :
    ∀ p ∈ (ntPairs unitA).drop 3, ntPair unitA M6p2 p = M6p2 := by decide

set_option maxRecDepth 100000 in
theorem ntp2_rest_id :
    ∀ u ∈ units.tail, ∀ p ∈ ntPairs u, ntPair u M6p2 p = M6p2 := by decide

theorem ntUnit_M6_rowA : ntUnit M6 unitA = M6row := by
  show (ntPairs unitA).foldl (ntPair unitA) M6 = M6row
  rw [ntPairsA_split13, List.foldl_append,
    foldl_id (ntPair unitA) ((ntPairs unitA).take 13) M6 ntp1_rowA_pre,
    List.foldl_cons, ntp1_rowA_fire]
  exact foldl_id (ntPair unitA) ((ntPairs unitA).drop 14) M6row ntp1_rowA_post

theorem ntUnit_M6row_sq1 : ntUnit M6row sq1 = M6p1 := by
  show (ntPairs sq1).foldl (ntPair sq1) M6row = M6p1
  rw [ntPairsSq_split2, List.foldl_append,
    foldl_id (ntPair sq1) ((ntPairs sq1).take 2) M6row ntp1_sq1_pre,
    List.foldl_cons, ntp1_sq1_fire]
  exact foldl_id (ntPair sq1) ((ntPairs sq1).drop 3) M6p1 ntp1_sq1_post

theorem ntUnit_M6p1_rowA : ntUnit M6p1 unitA = M6p2 := by
  show (ntPairs unitA).foldl (ntPair unitA) M6p1 = M6p2
  rw [ntPairsA_split2, List.foldl_append,
    foldl_id (ntPair unitA) ((ntPairs unitA).take 2) M6p1 ntp2_rowA_pre,
    List.foldl_cons, ntp2_rowA_fire]
  exact foldl_id (ntPair unitA) ((ntPairs unitA).drop 3) M6p2 ntp2_rowA_post

theorem naked_twins_M6 : naked_twins M6 = M6p1 := by
  show units.foldl ntUnit M6 = M6p1
  rw [units_decomp, List.foldl_cons, ntUnit_M6_rowA, List.foldl_append,
    foldl_id ntUnit ((units.tail).take 17) M6row
      (fun u hu => ntUnit_id M6row u (ntp1_mid_id u hu)),
    List.foldl_cons, ntUnit_M6row_sq1]
  exact foldl_id ntUnit ((units.tail).drop 18) M6p1
    (fun u hu => ntUnit_id M6p1 u (ntp1_late_id u hu))

theorem naked_twins_M6p1 : naked_twins M6p1 = M6p2 := by
  show units.foldl ntUnit M6p1 = M6p2
  rw [units_head, List.foldl_cons, ntUnit_M6p1_rowA]
  exact foldl_id ntUnit units.tail M6p2
    (fun u hu => ntUnit_id M6p2 u (ntp2_rest_id u hu))

set_option maxRecDepth 100000 in
theorem M6_keys : M6.map Prod.fst = boxes := by
  show (setv (setv (setv (setv (setv (grid_values dots81)
    "A1" "1234") "A2" "12") "A3" "1234") "A4" "345") "A5" "12").map Prod.fst = boxes
  rw [setv_map_fst, setv_map_fst, setv_map_fst, setv_map_fst, setv_map_fst, dots_keys]

set_option maxRecDepth 100000 in
theorem M6_pws : Pws M6 (grid_values dots81) := by
  have h1 : Pws (setv (grid_values dots81) "A1" "1234") (grid_values dots81) :=
    Pws_setv (by decide)
  have h2 : Pws (setv (setv (grid_values dots81) "A1" "1234") "A2" "12")
      (setv (grid_values dots81) "A1" "1234") :=
    Pws_setv (by decide)
  have h3 : Pws (setv (setv (setv (grid_values dots81) "A1" "1234") "A2" "12") "A3" "1234")
      (setv (setv (grid_values dots81) "A1" "1234") "A2" "12") :=
    Pws_setv (by decide)
  have h4 : Pws (setv (setv (setv (setv (grid_values dots81)
        "A1" "1234") "A2" "12") "A3" "1234") "A4" "345")
      (setv (setv (setv (grid_values dots81) "A1" "1234") "A2" "12") "A3" "1234") :=
    Pws_setv (by decide)
  have h5 : Pws (setv (setv (setv (setv (setv (grid_values dots81)
        "A1" "1234") "A2" "12") "A3" "1234") "A4" "345") "A5" "12")
      (setv (setv (setv (setv (grid_values dots81)
        "A1" "1234") "A2" "12") "A3" "1234") "A4" "345") :=
    Pws_setv (by decide)
  show Pws (setv (setv (setv (setv (setv (grid_values dots81)
    "A1" "1234") "A2" "12") "A3" "1234") "A4" "345") "A5" "12") (grid_values dots81)
  exact Pws_trans h5 (Pws_trans h4 (Pws_trans h3 (Pws_trans h2 h1)))

theorem M6_charsOK : charsOK M6 :=
  charsOK_of_pws M6 (grid_values dots81) M6_pws (grid_values_charsOK dots81)

set_option maxRecDepth 100000 in
/-- C6 counterexample: on the candidate map `M6` over all 81 boxes (its keys
are exactly `boxes` and its candidates are digit characters), applying
`naked_twins` twice differs from applying it once — after one pass box `A4`
still holds `"345"` because the row-A twins `A1 = A3 = "34"` were created
behind the lazy pair generator's scan position; the second pass removes `3`
and `4` from `A4`, leaving `"5"`. -/
theorem claim_c6_counterexample :
    naked_twins (naked_twins M6) ≠ naked_twins M6 ∧
      getv (naked_twins (naked_twins M6)) "A4" = "5" ∧
      getv (naked_twins M6) "A4" = "345" ∧
      M6.map Prod.fst = boxes ∧
      charsOK M6 := by
  rw [naked_twins_M6, naked_twins_M6p1]
  exact ⟨by decide, by decide, by decide, M6_keys, M6_charsOK⟩

theorem ntRemoveFold_pws (c0 c1 : Char) (L : List String) (m : CMap) :
    Pws (L.foldl (fun m' b => setv m' b (removeChar (removeChar (getv m' b) c0) c1)) m) m := by
  induction L generalizing m with
  | nil => exact Pws_refl m
  | cons x L' ih =>
    rw [List.foldl_cons]
    exact Pws_trans (ih _)
      (Pws_setv ((removeChar_sublist _ _).trans (removeChar_sublist _ _)))

theorem ntRemove_pws (m : CMap) (u : List String) (b1 b2 : String) :
    Pws (ntRemove m u b1 b2) m := by
  unfold ntRemove
  split
  · exact ntRemoveFold_pws _ _ _ m
  · exact Pws_refl m

theorem ntPair_pws (u : List String) (m : CMap) (p : String × String) :
    Pws (ntPair u m p) m := by
  unfold ntPair
  split
  · exact ntRemove_pws m u p.1 p.2
  · exact Pws_refl m

theorem ntUnit_pws (m : CMap) (u : List String) : Pws (ntUnit m u) m := by
  unfold ntUnit
  generalize ntPairs u = ps
  induction ps generalizing m with
  | nil => exact Pws_refl m
  | cons p ps' ih =>
    rw [List.foldl_cons]
    exact Pws_trans (ih _) (ntPair_pws u m p)

theorem naked_twins_pws (m : CMap) : Pws (naked_twins m) m := by
  unfold naked_twins
  generalize units = us
  induction us generalizing m with
  | nil => exact Pws_refl m
  | cons u us' ih =>
    rw [List.foldl_cons]
    exact Pws_trans (ih _) (ntUnit_pws m u)

theorem naked_twins_contracting (m : CMap) (b : String) :
    (getv (naked_twins m) b).data.length ≤ (getv m b).data.length :=
  (Pws_getv (naked_twins_pws m) b).length_le

/-- C6 amended: `naked_twins` is not idempotent, but it never enlarges any
box's candidate set, and iterating it at most `sumLen m` times reaches a map
it no longer changes (on which a second application trivially equals the
first). -/
theorem claim_c6_amended (m : CMap) :
    (∀ b : String, (getv (naked_twins m) b).data.length ≤ (getv m b).data.length) ∧
      ∃ k, k ≤ sumLen m ∧
        naked_twins^[k + 1] m = naked_twins^[k] m := by
  constructor
  · exact naked_twins_contracting m
  · suffices hgen : ∀ (n : Nat) (m : CMap), sumLen m ≤ n →
        ∃ k, k ≤ sumLen m ∧ naked_twins^[k + 1] m = naked_twins^[k] m by
      exact hgen (sumLen m) m Nat.le.refl
    intro n
    induction n with
    | zero =>
      intro m hn
      by_cases hfix : naked_twins m = m
      · refine ⟨0, Nat.zero_le _, ?_⟩
        rw [Function.iterate_succ_apply, Function.iterate_zero_apply,
          Function.iterate_zero_apply]
        exact hfix
      · have := Pws_sumLen_lt (naked_twins_pws m) hfix
        omega
    | succ n' ih =>
      intro m hn
      by_cases hfix : naked_twins m = m
      · refine ⟨0, Nat.zero_le _, ?_⟩
        rw [Function.iterate_succ_apply, Function.iterate_zero_apply,
          Function.iterate_zero_apply]
        exact hfix
      · have hlt := Pws_sumLen_lt (naked_twins_pws m) hfix
        obtain ⟨k, hk, hfp⟩ := ih (naked_twins m) (by omega)
        refine ⟨k + 1, by omega, ?_⟩
        have e1 : naked_twins^[k + 1 + 1] m = naked_twins^[k + 1] (naked_twins m) :=
          Function.iterate_succ_apply _ _ _
        have e2 : naked_twins^[k + 1] m = naked_twins^[k] (naked_twins m) :=
          Function.iterate_succ_apply _ _ _
        rw [e1, e2]
        exact hfp
